import Mathlib

/-!
Verification of the download-orchestration and installation pipeline of the
rimworld-workshop-downloader backend (`src/backend/src/core/steamcmd_client.rs`
and `src/backend/src/core/mod_manager.rs`), against its natural-language
specification.

The Rust code is shallowly embedded: pure functions become Lean functions on
`List`/`Nat` (u64 arithmetic is modelled with an explicit `% 2^64` where it can
wrap, and Rust panics become `none`/`Option`), and the effectful orchestration
and installation procedures become pure functions over explicit environments
describing the filesystem and subprocess outcomes, returning the trace of
channel messages / watcher events they produce.
-/

namespace Workshop

/-! ## u64 arithmetic -/

/-- Wrap-around of Rust `u64` addition results. -/
def u64Mod (n : Nat) : Nat := n % (2 ^ 64)

/-! ## Load balancer (`steamcmd_client.rs`, lines 125-179)

`balance_mods_round_robin` and `balance_mods_by_size` are pure functions from
the requested mod ids (plus the optional size map) to the per-instance batches.
Rust `Vec` indexing and `%` panic on a zero divisor / out-of-bounds index, so
the embeddings return `Option`, `none` standing for the panic. -/

/-- Loop body of `balance_mods_round_robin`:
`batches[idx % num_instances].push(mod_id.clone())` for each `(idx, mod_id)` in
`mod_ids.iter().enumerate()`.  `idx % 0` panics in Rust, modelled by `none`. -/
def rr_go (num_instances : Nat) :
    List String → Nat → List (List String) → Option (List (List String))
  | [], _, batches => some batches
  | id :: rest, idx, batches =>
    if num_instances = 0 then none
    else
      rr_go num_instances rest (idx + 1)
        (batches.set (idx % num_instances)
          ((batches.getD (idx % num_instances) []) ++ [id]))

/-- `fn balance_mods_round_robin(mod_ids: &[String], num_instances: usize)`:
one batch per instance, item at position `idx` pushed onto batch
`idx % num_instances`. -/
def balance_mods_round_robin (mod_ids : List String) (num_instances : Nat) :
    Option (List (List String)) :=
  rr_go num_instances mod_ids 0 (List.replicate num_instances [])

/-- `mod_sizes.get(mod_id).copied().unwrap_or(0)`. -/
def mod_size (mod_sizes : String → Option Nat) (id : String) : Nat :=
  (mod_sizes id).getD 0

/-- `mod_ids.iter().map(|mod_id| (mod_id.clone(), size)).collect()` with the
size looked up in the map, defaulting to `0`. -/
def mods_with_sizes (mod_ids : List String) (mod_sizes : String → Option Nat) :
    List (String × Nat) :=
  mod_ids.map (fun id => (id, mod_size mod_sizes id))

/-- `mods_with_sizes.sort_by(|a, b| b.1.cmp(&a.1))`: a stable sort, descending
by size (Rust's `sort_by` is a stable merge sort, as is `List.mergeSort`). -/
def sorted_mods (mod_ids : List String) (mod_sizes : String → Option Nat) :
    List (String × Nat) :=
  (mods_with_sizes mod_ids mod_sizes).mergeSort (fun a b => decide (b.2 ≤ a.2))

/-- The running state of
`instance_loads.iter().enumerate().min_by_key(|(_, &load)| load)`.
Rust's `min_by_key` keeps the first element on ties, i.e. the accumulator is
replaced only on a strict decrease. -/
def minLoadFold : Nat → List Nat → Option (Nat × Nat) → Option (Nat × Nat)
  | _, [], acc => acc
  | i, l :: ls, acc =>
    minLoadFold (i + 1) ls
      (match acc with
       | none => some (i, l)
       | some q => if l < q.2 then some (i, l) else some q)

/-- `...min_by_key(|(_, &load)| load).map(|(idx, _)| idx).unwrap_or(0)`. -/
def min_load_idx (loads : List Nat) : Nat :=
  match minLoadFold 0 loads none with
  | some q => q.1
  | none => 0

/-- One iteration of the greedy loop of `balance_mods_by_size`:
`batches[min_load_idx].push(mod_id); instance_loads[min_load_idx] += size;`.
The `u64` load accumulator wraps, and indexing an empty vector (the
`num_instances = 0` case, where `unwrap_or(0)` yields index `0`) panics,
modelled by `none`. -/
def assign_mod (st : List Nat × List (List String)) (m : String × Nat) :
    Option (List Nat × List (List String)) :=
  let idx := min_load_idx st.1
  if idx < st.1.length then
    some (st.1.set idx (u64Mod (st.1.getD idx 0 + m.2)),
          st.2.set idx ((st.2.getD idx []) ++ [m.1]))
  else
    none

/-- The greedy assignment loop `for (mod_id, size) in mods_with_sizes { ... }`. -/
def greedy_assign :
    List (String × Nat) → List Nat × List (List String) →
      Option (List Nat × List (List String))
  | [], st => some st
  | m :: rest, st =>
    match assign_mod st m with
    | some st' => greedy_assign rest st'
    | none => none

/-- `fn balance_mods_by_size(mod_ids, mod_sizes, num_instances)`: sort by size
descending, then greedily assign each mod to the instance with the least
current load. -/
def balance_mods_by_size (mod_ids : List String) (mod_sizes : String → Option Nat)
    (num_instances : Nat) : Option (List (List String)) :=
  (greedy_assign (sorted_mods mod_ids mod_sizes)
      (List.replicate num_instances 0, List.replicate num_instances [])).map
    Prod.snd

/-- Total size of the requested items (the spec's `totalSize`). -/
def total_size (mod_ids : List String) (mod_sizes : String → Option Nat) : Nat :=
  (mod_ids.map (mod_size mod_sizes)).sum

/-- Largest single item size (the spec's `max(itemSize)`). -/
def max_size (mod_ids : List String) (mod_sizes : String → Option Nat) : Nat :=
  (mod_ids.map (mod_size mod_sizes)).foldr max 0

/-- Concrete size map used by the witness theorems. -/
def demo_sizes : String → Option Nat := fun s =>
  if s = "a" then some 5
  else if s = "b" then some 3
  else if s = "c" then some 9
  else none

/-! ## `sanitize_folder_name` (`mod_manager.rs`, lines 13-42)

Strings are embedded as `List Char` (a Rust `String` is a sequence of unicode
scalar values); byte-level operations (`len()`, `truncate()`) act through
`Char.utf8Size`.  `String::truncate` panics when the cut point is not a
character boundary, modelled by `none`. -/

/-- The character filter of `sanitize_folder_name`:
`matches!(c, '<' | '>' | ':' | '"' | '/' | '\\' | '|' | '?' | '*' | '\x00'..='\x1F')`.
Note this covers only the C0 control range; `\x7F` (DEL) and the C1 controls
are not in the set. -/
def rust_illegal (c : Char) : Bool :=
  c = '<' || c = '>' || c = ':' || c = '\"' || c = '/' || c = '\\' || c = '|' ||
  c = '?' || c = '*' || decide (c.toNat ≤ 0x1F)

/-- Rust `char::is_whitespace`: the unicode `White_Space` property. -/
def rust_is_whitespace (c : Char) : Bool :=
  decide (c.toNat = 0x09) || decide (c.toNat = 0x0A) || decide (c.toNat = 0x0B) ||
  decide (c.toNat = 0x0C) || decide (c.toNat = 0x0D) || decide (c.toNat = 0x20) ||
  decide (c.toNat = 0x85) || decide (c.toNat = 0xA0) || decide (c.toNat = 0x1680) ||
  (decide (0x2000 ≤ c.toNat) && decide (c.toNat ≤ 0x200A)) ||
  decide (c.toNat = 0x2028) || decide (c.toNat = 0x2029) ||
  decide (c.toNat = 0x202F) || decide (c.toNat = 0x205F) ||
  decide (c.toNat = 0x3000)

/-- Accumulating splitter behind `str::split_whitespace`: maximal runs of
non-whitespace characters, in order. -/
def split_ws_aux : List Char → List Char → List (List Char)
  | [], acc => if acc = [] then [] else [acc.reverse]
  | c :: rest, acc =>
    if rust_is_whitespace c then
      if acc = [] then split_ws_aux rest []
      else acc.reverse :: split_ws_aux rest []
    else split_ws_aux rest (c :: acc)

/-- `split_whitespace()`: the whitespace-separated words of the string. -/
def split_whitespace (cs : List Char) : List (List Char) :=
  split_ws_aux cs []

/-- `Vec::join(" ")`: words joined by a single space. -/
def join_ws : List (List Char) → List Char
  | [] => []
  | [w] => w
  | w :: ws => w ++ ' ' :: join_ws ws

/-- `str::trim_matches` / `str::trim`: remove characters satisfying `p` from
both ends. -/
def trim_by (p : Char → Bool) (cs : List Char) : List Char :=
  ((cs.dropWhile p).reverse.dropWhile p).reverse

/-- UTF-8 byte length of the string (Rust `str::len`). -/
def byte_len (cs : List Char) : Nat := (cs.map Char.utf8Size).sum

/-- `String::truncate(n)`: keep the first `n` bytes.  A no-op when the string
is at most `n` bytes; panics (`none`) when byte `n` is not a character
boundary. -/
def truncate_bytes : Nat → List Char → Option (List Char)
  | _, [] => some []
  | n, c :: cs =>
    if n = 0 then some []
    else if c.utf8Size ≤ n then
      (truncate_bytes (n - c.utf8Size) cs).map (fun r => c :: r)
    else none

/-- `fn sanitize_folder_name(name: &str) -> String`: filter illegal characters,
collapse whitespace runs, trim, trim leading/trailing dots and whitespace,
fall back to `"Mod"` when empty, and cap the length at 200 bytes (re-trimming
after the cut).  `none` models the `truncate` panic. -/
def sanitize_folder_name (name : List Char) : Option (List Char) :=
  let s1 := name.filter (fun c => !(rust_illegal c))
  let s2 := join_ws (split_whitespace s1)
  let s3 := trim_by rust_is_whitespace s2
  let s4 := trim_by (fun c => c = '.' || rust_is_whitespace c) s3
  if s4 = [] then some ['M', 'o', 'd']
  else if byte_len s4 > 200 then
    (truncate_bytes 200 s4).map (trim_by rust_is_whitespace)
  else some s4

/-- Adjacency relation: no two neighbouring whitespace characters (the shape of
a string whose whitespace runs have been collapsed). -/
def no_ws_pair (a b : Char) : Prop :=
  ¬(rust_is_whitespace a = true ∧ rust_is_whitespace b = true)

/-! ## Installer (`mod_manager.rs`, `update_mod` and helpers)

Folder names and mod ids are `List Char`.  The mods directory is an abstract
environment: `query_mod_id` (defined in `mod_scanner.rs`, which is not among
the sources) and `get_package_id` (an `About.xml` parse, operating on file
contents outside the model) are uninterpreted environment functions, so the
theorems hold for every behaviour of them; `is_mod_corrupted` and the rest of
the control flow are translated from the source. -/

/-- A folder name / mod id, as a character list. -/
abbrev FolderName := List Char

/-- Abstract view of the mods directory consulted by `update_mod`. -/
structure ModsDir where
  /-- `read_dir(mods_path)` order of entry names. -/
  entries : List FolderName
  /-- `path.is_dir()` for `mods_path/name`. -/
  isDir : FolderName → Bool
  /-- `mods_path.join(name).exists()`. -/
  pathExists : FolderName → Bool
  /-- `mods_path/name/About` exists. -/
  aboutExists : FolderName → Bool
  /-- `mods_path/name/About` is a directory. -/
  aboutIsDir : FolderName → Bool
  /-- `mods_path/name/About/About.xml` exists. -/
  aboutXmlExists : FolderName → Bool
  /-- `query_mod_id(mods_path/name)`, collapsed to `some id` for `Ok(Some(id))`
  and `none` otherwise (source in `mod_scanner.rs`, not part of the sources). -/
  queryModId : FolderName → Option FolderName
  /-- `get_package_id(mods_path/name)` (an uninterpreted `About.xml` parse). -/
  packageId : FolderName → Option FolderName
  /-- `read_dir(mods_path)` fails. -/
  readDirFails : Bool

/-- `fn is_mod_corrupted(mod_path: &Path) -> bool` (`mod_manager.rs`, lines
533-552): missing `About` folder or `About.xml` means corrupted; a
non-existing path is not a mod folder at all. -/
def is_mod_corrupted (env : ModsDir) (name : FolderName) : Bool :=
  if !(env.pathExists name && env.isDir name) then false
  else if !(env.aboutExists name && env.aboutIsDir name) then true
  else if !(env.aboutXmlExists name) then true
  else false

/-- `fn find_existing_mod_folder`: the first directory entry whose
`query_mod_id` equals the requested id. -/
def find_existing_mod_folder (env : ModsDir) (mod_id : FolderName) :
    Option FolderName :=
  env.entries.find? (fun n => env.isDir n && (env.queryModId n == some mod_id))

/-- Errors of the installer.  `corrupted_conflict` is the
`CORRUPTED_MOD_CONFLICT:{folder_name}:{mod_id}` sentinel; `panicked` marks a
Rust panic (reachable only through `sanitize_folder_name`; the rename loops are
proven to never hit it). -/
inductive UpdateErr where
  | corrupted_conflict (folder : FolderName) (mod_id : FolderName)
  | find_failed
  | create_dir_failed
  | cancelled
  | backup_dir_failed
  | backup_remove_failed
  | backup_copy_failed
  | remove_failed
  | source_missing
  | source_incomplete
  | copy_failed
  | copied_incomplete
  | ensure_id_failed
  | panicked
  deriving DecidableEq, Repr

/-- The suffix-appending collision loop of `update_mod` (three occurrences:
the force-rename of a corrupted target and the one-sided-packageId cases use
`check_pkg = none`; the differing-packageId case passes the source packageId
and additionally breaks when the colliding folder carries that same id).
Each iteration appends `'_'` to `folder_name` and re-joins `proposed_path`;
the loop exits on a non-existing name, on a matching packageId, or — once the
name exceeds the base length by more than 50 bytes — with
`format!("{}_{}", base_name, mod_id)`.  The Rust keeps `folder_name` and
`proposed_path` as two mutable variables, and the safety-fallback exit
reassigns only `folder_name`: `proposed_path` stays at the last (colliding)
underscore name.  The result is the pair `(folder_name, proposed_path)`.
`fuel` counts remaining iterations; `none` means the fuel ran out before the
loop exited. -/
def rename_loop_go (env : ModsDir) (base mod_id : FolderName)
    (check_pkg : Option FolderName) :
    Nat → FolderName → Option (FolderName × FolderName)
  | 0, _ => none
  | fuel + 1, fn =>
    let fn' := fn ++ ['_']
    if !(env.pathExists fn') then some (fn', fn')
    else if check_pkg.isSome && (env.packageId fn' == check_pkg) then
      some (fn', fn')
    else if byte_len fn' > byte_len base + 50 then
      some (base ++ '_' :: mod_id, fn')
    else rename_loop_go env base mod_id check_pkg fuel fn'

/-- The final `folder_name` of the rename loop, run with enough fuel
(51 iterations; claim C7 shows the loop always exits within that bound). -/
def rename_loop (env : ModsDir) (base mod_id : FolderName)
    (check_pkg : Option FolderName) : Option FolderName :=
  (rename_loop_go env base mod_id check_pkg 51 base).map Prod.fst

/-- The final `proposed_path` of the rename loop: equal to the folder name
except after the safety-fallback exit, where it remains the last colliding
underscore name (the path line 125 of `mod_manager.rs` subsequently
re-checks). -/
def rename_loop_proposed (env : ModsDir) (base mod_id : FolderName)
    (check_pkg : Option FolderName) : Option FolderName :=
  (rename_loop_go env base mod_id check_pkg 51 base).map Prod.snd

/-- The corruption gate of `update_mod` (lines 88-121): when the proposed
destination is corrupted, `force_overwrite_corrupted` decides between
overwriting (keep the name), renaming (the underscore loop), and the
`CORRUPTED_MOD_CONFLICT` error asking the caller.  Returns the pair of the
current `folder_name` and the current `proposed_path` (which the force-rename
safety fallback leaves out of sync, see `rename_loop_go`). -/
def corruption_step (env : ModsDir) (mod_id base : FolderName)
    (force : Option Bool) : Except UpdateErr (FolderName × FolderName) :=
  if is_mod_corrupted env base then
    match force with
    | some true => .ok (base, base)
    | some false =>
      match rename_loop_go env base mod_id none 51 base with
      | some fnpp => .ok fnpp
      | none => .error .panicked
    | none => .error (.corrupted_conflict base mod_id)
  else .ok (base, base)

/-- The packageId collision block of `update_mod` (lines 125-207), entered
when the current `proposed_path` exists and is not corrupted.  The packageId
and mod-id lookups read `proposed_path` (`pp`, possibly the stale colliding
name after the force-rename safety fallback); the renames extend the current
`folder_name` (`fn`). -/
def pkg_block (env : ModsDir) (src_pkg : Option FolderName)
    (mod_id fn pp : FolderName) : Except UpdateErr FolderName :=
  match src_pkg, env.packageId pp with
  | some s, some e =>
    if s ≠ e then
      match rename_loop env fn mod_id (some s) with
      | some r => .ok r
      | none => .error .panicked
    else .ok fn
  | some _, none =>
    match rename_loop env fn mod_id none with
    | some r => .ok r
    | none => .error .panicked
  | none, some _ =>
    match rename_loop env fn mod_id none with
    | some r => .ok r
    | none => .error .panicked
  | none, none =>
    match env.queryModId pp with
    | some existing_mod_id =>
      if existing_mod_id ≠ mod_id then .ok (fn ++ ' ' :: '(' :: (mod_id ++ [')']))
      else .ok fn
    | none => .ok fn

/-- Name resolution for a title-derived name (lines 69-212): the corruption
gate, then — if the current `proposed_path` still exists and is not
corrupted — the packageId collision block. -/
def resolve_derived (env : ModsDir) (src_pkg : Option FolderName)
    (mod_id base : FolderName) (force : Option Bool) :
    Except UpdateErr FolderName :=
  if env.pathExists base && env.isDir base then
    match corruption_step env mod_id base force with
    | .error e => .error e
    | .ok fnpp =>
      if env.pathExists fnpp.2 && !(is_mod_corrupted env fnpp.2) then
        pkg_block env src_pkg mod_id fnpp.1 fnpp.2
      else .ok fnpp.1
  else .ok base

/-- Folder-name resolution of `update_mod` (lines 57-214): a caller-supplied
name wins; else a folder already carrying the mod id is reused; else the name
is derived from the sanitized title (falling back to the mod id) and passed
through the corruption gate and the collision block. -/
def resolve_folder_name (env : ModsDir) (src_pkg : Option FolderName)
    (mod_id : FolderName) (existing_folder_name : Option FolderName)
    (mod_title : Option FolderName) (force : Option Bool) :
    Except UpdateErr FolderName :=
  match existing_folder_name with
  | some name => .ok name
  | none =>
    if env.readDirFails then .error .find_failed
    else
      match find_existing_mod_folder env mod_id with
      | some existing => .ok existing
      | none =>
        match sanitize_folder_name (mod_title.getD mod_id) with
        | none => .error .panicked
        | some base => resolve_derived env src_pkg mod_id base force

/-- Events on the destination path emitted by the effectful part of
`update_mod` (backup operations act on the backup path, not the destination,
and are therefore trace-silent; the model assumes the backup location is
distinct from the destination). -/
inductive InstallEvent where
  /-- `ignore_path_in_watcher(dest)` followed by `WatcherIgnoreGuard::new`
  (the guard itself is modelled from the spec: its release runs on every exit
  after this point). -/
  | ignore_dest
  /-- `remove_dir_with_retry(dest)` succeeded: the destination was deleted. -/
  | removed_dest
  /-- `copy_dir_all_async(source, dest)` succeeded. -/
  | copied_dest
  /-- The guard released the path (`Drop` on an error exit, or the manual
  `_guard.unignore()` on success). -/
  | unignore_dest
  deriving DecidableEq, Repr

/-- Outcomes of the filesystem operations and cancellation checks performed by
the effectful part of one `update_mod` invocation. -/
structure InstallEnv where
  createDirFails : Bool
  cancelledBeforeBackup : Bool
  backupDirCreateFails : Bool
  backupExists : Bool
  backupRemoveFails : Bool
  destExistsForBackup : Bool
  backupCopyFails : Bool
  cancelledBeforeRemove : Bool
  destExistsForRemove : Bool
  removeFails : Bool
  srcExists : Bool
  srcComplete : Bool
  cancelledBeforeCopy : Bool
  copyFails : Bool
  destComplete : Bool
  ensureIdFails : Bool
  deriving DecidableEq, Repr

/-- The effectful tail of `update_mod` (lines 216-311) for a resolved
destination: ensure the mods folder, optional backup (cancellation check,
backup-dir creation, stale-backup removal, copy), register the destination in
the watcher ignore set, remove the existing destination (with a cancellation
check first), verify and copy the source, verify the copy, ensure the id
marker — releasing the ignore registration on every exit after it was taken.
Returns the result together with the trace of destination-path events. -/
def install_phase (env : InstallEnv) (create_backup : Bool)
    (has_backup_dir : Bool) : Except UpdateErr Unit × List InstallEvent :=
  if env.createDirFails then (.error .create_dir_failed, [])
  else if create_backup && env.cancelledBeforeBackup then (.error .cancelled, [])
  else if create_backup && has_backup_dir && env.backupDirCreateFails then
    (.error .backup_dir_failed, [])
  else if create_backup && has_backup_dir && env.backupExists &&
      env.backupRemoveFails then
    (.error .backup_remove_failed, [])
  else if create_backup && has_backup_dir && env.destExistsForBackup &&
      env.backupCopyFails then
    (.error .backup_copy_failed, [])
  else if env.destExistsForRemove && env.cancelledBeforeRemove then
    (.error .cancelled, [.ignore_dest, .unignore_dest])
  else if env.destExistsForRemove && env.removeFails then
    (.error .remove_failed, [.ignore_dest, .unignore_dest])
  else
    let tr1 := if env.destExistsForRemove then
      [InstallEvent.ignore_dest, .removed_dest] else [InstallEvent.ignore_dest]
    if !env.srcExists then (.error .source_missing, tr1 ++ [.unignore_dest])
    else if !env.srcComplete then
      (.error .source_incomplete, tr1 ++ [.unignore_dest])
    else if env.cancelledBeforeCopy then
      (.error .cancelled, tr1 ++ [.unignore_dest])
    else if env.copyFails then (.error .copy_failed, tr1 ++ [.unignore_dest])
    else if !env.destComplete then
      (.error .copied_incomplete, tr1 ++ [.copied_dest, .unignore_dest])
    else if env.ensureIdFails then
      (.error .ensure_id_failed, tr1 ++ [.copied_dest, .unignore_dest])
    else (.ok (), tr1 ++ [.copied_dest, .unignore_dest])

/-- One invocation of `update_mod`: resolve the folder name, then run the
effectful phase on the resolved destination. -/
def update_mod (menv : ModsDir) (ienv : InstallEnv)
    (src_pkg : Option FolderName) (mod_id : FolderName)
    (existing_folder_name : Option FolderName) (mod_title : Option FolderName)
    (create_backup : Bool) (has_backup_dir : Bool) (force : Option Bool) :
    Except UpdateErr FolderName × List InstallEvent :=
  match resolve_folder_name menv src_pkg mod_id existing_folder_name mod_title
      force with
  | .error e => (.error e, [])
  | .ok folder_name =>
    match install_phase ienv create_backup has_backup_dir with
    | (.ok _, tr) => (.ok folder_name, tr)
    | (.error e, tr) => (.error e, tr)

/-- Whether the destination path is in the watcher ignore set after the trace,
starting from `initially`. -/
def dest_ignored_after (initially : Bool) (trace : List InstallEvent) : Bool :=
  trace.foldl
    (fun s e =>
      match e with
      | .ignore_dest => true
      | .unignore_dest => false
      | _ => s)
    initially

/-- `true` iff no destination removal occurs before the first ignore
registration in the trace. -/
def remove_preceded_by_ignore (trace : List InstallEvent) : Bool :=
  !((trace.takeWhile (fun e => !(e == .ignore_dest))).contains .removed_dest)

/-- Concrete corrupted mods directory used by counterexamples and witnesses:
one folder `Alpha` with no `About` folder. -/
def demo_corrupt_dir : ModsDir where
  entries := [['A', 'l', 'p', 'h', 'a']]
  isDir := fun n => n == ['A', 'l', 'p', 'h', 'a']
  pathExists := fun n => n == ['A', 'l', 'p', 'h', 'a']
  aboutExists := fun _ => false
  aboutIsDir := fun _ => false
  aboutXmlExists := fun _ => false
  queryModId := fun _ => none
  packageId := fun _ => none
  readDirFails := false

/-- A fully benign effectful environment: nothing fails, nothing cancelled,
the destination exists and the copy verifies. -/
def demo_install_env : InstallEnv where
  createDirFails := false
  cancelledBeforeBackup := false
  backupDirCreateFails := false
  backupExists := false
  backupRemoveFails := false
  destExistsForBackup := false
  backupCopyFails := false
  cancelledBeforeRemove := false
  destExistsForRemove := true
  removeFails := false
  srcExists := true
  srcComplete := true
  cancelledBeforeCopy := false
  copyFails := false
  destComplete := true
  ensureIdFails := false

/-- Adversarial mods directory for the rename loop: every folder name of at
most 51 characters exists. -/
def deep_collision_dir : ModsDir where
  entries := []
  isDir := fun _ => true
  pathExists := fun n => decide (n.length ≤ 51)
  aboutExists := fun _ => true
  aboutIsDir := fun _ => true
  aboutXmlExists := fun _ => true
  queryModId := fun _ => none
  packageId := fun _ => none
  readDirFails := false

/-! ## Completion detector (`steamcmd_client.rs`, `wait_for_mod_download_static`)

The detector is embedded as a pure function over a scenario describing the
filesystem and the shared failure tracker at each of its observation points.
The channel effect is reduced to whether an `Ok` success was sent. -/

/-- One iteration of the detector's watch loop: a filesystem notification
(with the folder/tracker state at the re-check), a 2-second receive timeout
(the polling fallback), or the watcher channel disconnecting. -/
inductive DetectorEvent where
  | fs_event (touches nonEmpty flagged : Bool)
  | poll_tick (nonEmpty flagged : Bool)
  | disconnected
  deriving DecidableEq, Repr

/-- A detector scenario: the fast-path state at start, the loop iterations
until the absolute timeout, the state at the in-task final check (reached via
`disconnected`), and — when the outer `tokio::time::timeout` fires with the
task still silent — the state at the outer final check.  `outerFlagged`
records whether the item is in the failure set at that moment; the source
never reads it on that path. -/
structure DetectorEnv where
  initNonEmpty : Bool
  initFlagged : Bool
  events : List DetectorEvent
  finalNonEmpty : Bool
  finalFlagged : Bool
  outerTimeout : Bool
  outerNonEmpty : Bool
  outerFlagged : Bool
  deriving Repr

/-- The watch loop: each iteration re-checks the folder and consults the
failure tracker before sending; an exhausted event list models the absolute
timeout at the loop head (`return Ok(None)`, no send); `disconnected` breaks
to the in-task final check, which also consults the tracker.  Returns
`(sent_ok, detected)`. -/
def detector_loop : List DetectorEvent → Bool → Bool → Bool × Bool
  | [], _, _ => (false, false)
  | .fs_event touches nonEmpty flagged :: rest, fNE, fFL =>
    if touches && nonEmpty then
      if flagged then (false, false) else (true, true)
    else detector_loop rest fNE fFL
  | .poll_tick nonEmpty flagged :: rest, fNE, fFL =>
    if nonEmpty then
      if flagged then (false, false) else (true, true)
    else detector_loop rest fNE fFL
  | .disconnected :: _, fNE, fFL =>
    if fNE then
      if fFL then (false, false) else (true, true)
    else (false, false)

/-- `wait_for_mod_download_static`: the fast path at detector start (tracker
consulted), then either the outer-timeout final check — which sends on a
non-empty folder WITHOUT consulting the failure tracker — or the watch loop.
Returns `(sent_ok, detected)`. -/
def wait_for_mod_download_static (env : DetectorEnv) : Bool × Bool :=
  if env.initNonEmpty then
    if env.initFlagged then (false, false) else (true, true)
  else if env.outerTimeout then
    if env.outerNonEmpty then (true, true) else (false, false)
  else
    detector_loop env.events env.finalNonEmpty env.finalFlagged

/-! ## Download orchestrator (`steamcmd_client.rs`, `download_mods_with_sizes`)

One orchestration run is modelled as a pure function of an outcome oracle:
`oracle n id` is what attempt `n` observes for item `id` (combining the
detector result, the shared failure set at detection and join time, and the
completeness verification).  The model produces the sequence of channel
messages (tagged with the attempt number that emitted them) and the list of
fetch-tool attempts with the item ids each included.  Batch decomposition
does not change which per-item messages are sent, so the attempt emits the
messages item by item; attempt-level errors other than "all downloads
failed" (e.g. a spawn failure) are not modelled. -/

/-- What one attempt observes for one item, at the batch join
(`download_mods_batch`, lines 700-747):
`verified` — the detector sent `Ok` and `verify_mod_download_complete`
passed, so the item counts as downloaded; `flagged_before` — SteamCMD flagged
the item before detection, the detector suppressed its send, and the joiner
sends the per-attempt `Err`; `flagged_after` — the detector sent `Ok` but the
flag was set by join time, so the joiner also sends `Err` and the item is not
counted; `incomplete` — the detector sent `Ok` but verification failed
(`Err` sent, not counted); `timeout` — not detected (`Err` sent);
`detector_error` — the detector returned an error (`Err` sent). -/
inductive AttemptOutcome where
  | verified
  | flagged_before
  | flagged_after
  | incomplete
  | timeout
  | detector_error
  deriving DecidableEq, Repr

/-- A channel message, tagged with the attempt that emitted it.  `ok` is the
detector's success send; `err` the per-attempt failure send of the batch
joiner; `err_final` the terminal "Download failed after 6 attempts" send of
the retry loop (the source message text does not name the id; the model
records which remaining item each terminal send stands for). -/
inductive ChanMsg where
  | ok (mod_id : String) (attempt : Nat)
  | err (mod_id : String) (attempt : Nat)
  | err_final (mod_id : String) (attempt : Nat)
  deriving DecidableEq, Repr

/-- The id a message is about. -/
def msg_id : ChanMsg → String
  | .ok i _ => i
  | .err i _ => i
  | .err_final i _ => i

/-- The attempt tag of a message. -/
def msg_tag : ChanMsg → Nat
  | .ok _ n => n
  | .err _ n => n
  | .err_final _ n => n

/-- Channel messages emitted for one item in one attempt, by outcome. -/
def outcome_msgs (id : String) (n : Nat) : AttemptOutcome → List ChanMsg
  | .verified => [.ok id n]
  | .flagged_before => [.err id n]
  | .flagged_after => [.ok id n, .err id n]
  | .incomplete => [.ok id n, .err id n]
  | .timeout => [.err id n]
  | .detector_error => [.err id n]

/-- All channel messages of attempt `n` over the remaining items. -/
def attempt_msgs (oracle : Nat → String → AttemptOutcome) (n : Nat)
    (remaining : List String) : List ChanMsg :=
  (remaining.map (fun id => outcome_msgs id n (oracle n id))).flatten

/-- `const MAX_RETRIES: u32 = 6`. -/
def MAX_RETRIES : Nat := 6

/-- The retry loop of `download_mods_with_sizes` (lines 220-354), from state
`(remaining, retry_count)`: run one attempt; if nothing was verified
(`download_mods_single_attempt_static` returns `Err` when no mod downloaded),
increment and retry, or — once the count exceeds `MAX_RETRIES` — send one
terminal failure per remaining item and stop; if something was verified, drop
the verified items from `remaining`, stop when empty, retry while
`retry_count < MAX_RETRIES`, and otherwise send the terminal failures.
Returns the channel stream and the list of `(retry_count, included ids)`
fetch-tool attempts.  `fuel` is `MAX_RETRIES + 1 - retry_count`. -/
def run_from (oracle : Nat → String → AttemptOutcome) :
    Nat → List String → Nat → List ChanMsg × List (Nat × List String)
  | _, [], _ => ([], [])
  | 0, _, _ => ([], [])
  | fuel + 1, remaining, rc =>
    if rc > MAX_RETRIES then ([], [])
    else
      let msgs := attempt_msgs oracle rc remaining
      let downloaded := remaining.filter (fun id => oracle rc id == .verified)
      if downloaded.isEmpty then
        if rc + 1 > MAX_RETRIES then
          (msgs ++ remaining.map (fun id => ChanMsg.err_final id rc),
            [(rc, remaining)])
        else
          let rest := run_from oracle fuel remaining (rc + 1)
          (msgs ++ rest.1, (rc, remaining) :: rest.2)
      else
        let remaining' := remaining.filter (fun id => !(oracle rc id == .verified))
        if remaining'.isEmpty then (msgs, [(rc, remaining)])
        else if rc < MAX_RETRIES then
          let rest := run_from oracle fuel remaining' (rc + 1)
          (msgs ++ rest.1, (rc, remaining) :: rest.2)
        else
          (msgs ++ remaining'.map (fun id => ChanMsg.err_final id rc),
            [(rc, remaining)])

/-- One full orchestration run over the requested ids. -/
def download_mods_with_sizes (oracle : Nat → String → AttemptOutcome)
    (mod_ids : List String) : List ChanMsg × List (Nat × List String) :=
  run_from oracle (MAX_RETRIES + 1) mod_ids 0

/-- How many stream messages concern `id`. -/
def msgs_for (id : String) (l : List ChanMsg) : Nat :=
  l.countP (fun m => msg_id m == id)

/-- Oracle for runs in which every attempt fails (SteamCMD reports the item
failed before the detector sees a folder). -/
def always_fails_oracle : Nat → String → AttemptOutcome :=
  fun _ _ => .flagged_before

/-- Oracle for a run whose first attempt leaves a non-empty but incomplete
folder (detector sends `Ok`, verification fails) and whose second attempt
succeeds. -/
def flaky_oracle : Nat → String → AttemptOutcome :=
  fun n _ => if n = 0 then .incomplete else .verified

/-- Oracle for runs in which every item is verified on the first attempt. -/
def always_ok_oracle : Nat → String → AttemptOutcome :=
  fun _ _ => .verified

/-- Detector scenario for the C5 slip: the folder never appears while the
task watches, the absolute timeout fires, and at the outer final check the
folder is present but the item is in the failure set. -/
def timeout_bug_env : DetectorEnv where
  initNonEmpty := false
  initFlagged := false
  events := []
  finalNonEmpty := false
  finalFlagged := false
  outerTimeout := true
  outerNonEmpty := true
  outerFlagged := true

/-- Detector scenario: the polling fallback finds the folder while the item
is in the failure set. -/
def flagged_poll_env : DetectorEnv where
  initNonEmpty := false
  initFlagged := false
  events := [.poll_tick true true]
  finalNonEmpty := true
  finalFlagged := true
  outerTimeout := false
  outerNonEmpty := true
  outerFlagged := true

/-- Detector scenario: the fast path finds the folder while the item is in
the failure set. -/
def flagged_fast_env : DetectorEnv where
  initNonEmpty := true
  initFlagged := true
  events := []
  finalNonEmpty := true
  finalFlagged := true
  outerTimeout := false
  outerNonEmpty := true
  outerFlagged := true

/-! ### Properties of `min_load_idx` -/

theorem minLoadFold_some_spec (ls : List Nat) :
    ∀ (i j v : Nat), ∃ q, minLoadFold i ls (some (j, v)) = some q ∧
      q.2 ≤ v ∧ (∀ l ∈ ls, q.2 ≤ l) ∧
      (q = (j, v) ∨ ∃ k, k < ls.length ∧ q.1 = i + k ∧ ls.getD k 0 = q.2) := by
  induction ls with
  | nil =>
    intro i j v
    exact ⟨(j, v), rfl, le_refl _, by simp, Or.inl rfl⟩
  | cons l ls ih =>
    intro i j v
    by_cases h : l < v
    · obtain ⟨q, hq, hqv, hmem, hidx⟩ := ih (i + 1) i l
      refine ⟨q, ?_, le_trans hqv (le_of_lt h), ?_, ?_⟩
      · simpa [minLoadFold, h] using hq
      · intro x hx
        rcases List.mem_cons.mp hx with rfl | hx
        · exact hqv
        · exact hmem x hx
      · rcases hidx with rfl | ⟨k, hk, hk1, hk2⟩
        · exact Or.inr ⟨0, by simp, by simp, by simp⟩
        · exact Or.inr ⟨k + 1, by simpa using hk, by omega, by simpa using hk2⟩
    · obtain ⟨q, hq, hqv, hmem, hidx⟩ := ih (i + 1) j v
      refine ⟨q, ?_, hqv, ?_, ?_⟩
      · simpa [minLoadFold, h] using hq
      · intro x hx
        rcases List.mem_cons.mp hx with rfl | hx
        · exact le_trans hqv (le_of_not_lt h)
        · exact hmem x hx
      · rcases hidx with rfl | ⟨k, hk, hk1, hk2⟩
        · exact Or.inl rfl
        · exact Or.inr ⟨k + 1, by simpa using hk, by omega, by simpa using hk2⟩

/-- For a non-empty load vector, `min_load_idx` is a valid index holding a
minimal load. -/
theorem min_load_idx_spec (loads : List Nat) (h : loads ≠ []) :
    min_load_idx loads < loads.length ∧
      ∀ l ∈ loads, loads.getD (min_load_idx loads) 0 ≤ l := by
  match loads, h with
  | l :: ls, _ =>
    obtain ⟨q, hq, hqv, hmem, hidx⟩ := minLoadFold_some_spec ls 1 0 l
    have hfold : minLoadFold 0 (l :: ls) none = some q := by
      simpa [minLoadFold] using hq
    have hmin : min_load_idx (l :: ls) = q.1 := by
      simp [min_load_idx, hfold]
    have hval : (l :: ls).getD q.1 0 = q.2 ∧ q.1 < (l :: ls).length := by
      rcases hidx with rfl | ⟨k, hk, hk1, hk2⟩
      · exact ⟨by simp, by simp⟩
      · refine ⟨?_, ?_⟩
        · rw [hk1, Nat.add_comm 1 k]
          simpa using hk2
        · simp only [List.length_cons]
          omega
    rw [hmin]
    refine ⟨hval.2, ?_⟩
    intro x hx
    rw [hval.1]
    rcases List.mem_cons.mp hx with rfl | hx
    · exact hqv
    · exact hmem x hx

/-! ### General list helpers -/

/-- If `m` is a lower bound of every element, `length * m` bounds the sum. -/
theorem length_mul_le_sum_of_forall_le (l : List Nat) (m : Nat)
    (h : ∀ x ∈ l, m ≤ x) : l.length * m ≤ l.sum := by
  induction l with
  | nil => simp
  | cons a l ih =>
    have ha := h a (List.mem_cons_self a l)
    have hl := ih (fun x hx => h x (List.mem_cons_of_mem a hx))
    simp only [List.length_cons, List.sum_cons, Nat.succ_mul]
    omega

/-- Updating entry `n` of a list changes the sum by replacing the old entry. -/
theorem sum_set_add_old (l : List Nat) (n : Nat) (a : Nat) (hn : n < l.length) :
    (l.set n a).sum + l.getD n 0 = l.sum + a := by
  induction l generalizing n with
  | nil => simp at hn
  | cons b l ih =>
    cases n with
    | zero => simp [Nat.add_comm, Nat.add_left_comm]
    | succ n =>
      have hn' : n < l.length := by simpa using hn
      have := ih n hn'
      simp only [List.set_cons_succ, List.sum_cons, List.getD_cons_succ]
      omega

/-- Membership in `l.set n a` comes from `l` or is `a` itself. -/
theorem mem_of_mem_set {α : Type _} {l : List α} {n : Nat} {a x : α}
    (h : x ∈ l.set n a) : x ∈ l ∨ x = a := by
  by_cases hn : n < l.length
  · rw [List.set_eq_take_append_cons_drop, if_pos hn] at h
    rcases List.mem_append.mp h with h | h
    · exact Or.inl (List.mem_of_mem_take h)
    · rcases List.mem_cons.mp h with rfl | h
      · exact Or.inr rfl
      · exact Or.inl (List.mem_of_mem_drop h)
  · rw [List.set_eq_take_append_cons_drop, if_neg hn] at h
    exact Or.inl h

/-- `getD` after `set` at the written index. -/
theorem getD_set_self {α : Type _} (l : List α) (n : Nat) (a d : α)
    (hn : n < l.length) : (l.set n a).getD n d = a := by
  have hn' : n < (l.set n a).length := by simpa using hn
  rw [List.getD_eq_getElem _ _ hn']
  exact List.getElem_set_self hn'

/-- `getD` after `set` at a different index. -/
theorem getD_set_ne {α : Type _} (l : List α) {n m : Nat} (a d : α)
    (h : n ≠ m) : (l.set n a).getD m d = l.getD m d := by
  by_cases hm : m < l.length
  · have hm' : m < (l.set n a).length := by simpa using hm
    rw [List.getD_eq_getElem _ _ hm', List.getD_eq_getElem _ _ hm]
    exact List.getElem_set_ne h hm'
  · have hm' : ¬ m < (l.set n a).length := by simpa using hm
    rw [List.getD_eq_default _ _ (by omega), List.getD_eq_default _ _ (by omega)]

/-- Every member of a list of naturals is at most the `foldr max 0`. -/
theorem le_foldr_max (l : List Nat) : ∀ x ∈ l, x ≤ l.foldr max 0 := by
  induction l with
  | nil => simp
  | cons a l ih =>
    intro x hx
    rcases List.mem_cons.mp hx with rfl | hx
    · exact le_max_left _ _
    · exact le_trans (ih x hx) (le_max_right _ _)

/-- Appending an element to the `i`-th block permutes the flattened list with
the element appended. -/
theorem flatten_set_append {α : Type _} (bs : List (List α)) (i : Nat) (x : α)
    (hi : i < bs.length) :
    ((bs.set i (bs.getD i [] ++ [x])).flatten).Perm (bs.flatten ++ [x]) := by
  have hgd : bs.getD i [] = bs[i] := List.getD_eq_getElem bs [] hi
  have hsplit : bs.flatten =
      (bs.take i).flatten ++ (bs[i] ++ (bs.drop (i + 1)).flatten) := by
    conv_lhs => rw [← List.take_append_drop i bs]
    rw [List.flatten_append, ← List.getElem_cons_drop bs i hi, List.flatten_cons]
  rw [List.set_eq_take_append_cons_drop, if_pos hi, hgd, hsplit]
  simp only [List.flatten_append, List.flatten_cons, List.append_assoc]
  exact List.Perm.append_left _
    (List.Perm.append_left _ List.perm_append_comm)

/-! ### The greedy invariant for `balance_mods_by_size` -/

/-- Main invariant for the greedy loop.  Provided the total size fits in a
`u64` (so the load accumulators never wrap), the loop succeeds, the batches
keep their count, and every per-instance accumulated size stays below
`T / M + mx`. -/
theorem greedy_assign_spec (sz : String → Option Nat) (M T mx : Nat)
    (hM : 0 < M) (hT : T < 2 ^ 64) :
    ∀ (rest : List (String × Nat)) (loads : List Nat)
      (batches : List (List String)),
      loads.length = M → batches.length = M →
      loads.sum + (rest.map Prod.snd).sum ≤ T →
      (∀ p ∈ rest, p.2 ≤ mx) →
      (∀ p ∈ rest, p.2 = mod_size sz p.1) →
      (∀ l ∈ loads, l ≤ T / M + mx) →
      (∀ i, i < M → loads.getD i 0 = ((batches.getD i []).map (mod_size sz)).sum) →
      ∃ st, greedy_assign rest (loads, batches) = some st ∧
        st.2.length = M ∧
        ∀ b ∈ st.2, (b.map (mod_size sz)).sum ≤ T / M + mx := by
  intro rest
  induction rest with
  | nil =>
    intro loads batches hlen hblen _hsum _hmx _hsz hbound hpair
    refine ⟨(loads, batches), rfl, hblen, ?_⟩
    intro b hb
    have hb' : b ∈ batches := hb
    obtain ⟨i, hi, rfl⟩ := List.mem_iff_getElem.mp hb'
    have hiM : i < M := by omega
    have hbd : batches.getD i [] = batches[i] := List.getD_eq_getElem batches [] hi
    rw [← hbd, ← hpair i hiM]
    have : loads.getD i 0 ∈ loads := by
      rw [List.getD_eq_getElem loads 0 (by omega)]
      exact List.getElem_mem _
    exact hbound _ this
  | cons p rest ih =>
    intro loads batches hlen hblen hsum hmx hsz hbound hpair
    have hne : loads ≠ [] := by
      intro hcon
      rw [hcon] at hlen
      simp at hlen
      omega
    obtain ⟨hidx, hmin⟩ := min_load_idx_spec loads hne
    set idx := min_load_idx loads with hidxdef
    have hvmem : loads.getD idx 0 ∈ loads := by
      rw [List.getD_eq_getElem loads 0 hidx]
      exact List.getElem_mem _
    -- the minimal load is at most T / M
    have hMmul : M * loads.getD idx 0 ≤ loads.sum := by
      have := length_mul_le_sum_of_forall_le loads (loads.getD idx 0) hmin
      rwa [hlen] at this
    have hminsum : loads.getD idx 0 ≤ loads.sum := by
      calc loads.getD idx 0 = 1 * loads.getD idx 0 := by omega
        _ ≤ M * loads.getD idx 0 := Nat.mul_le_mul_right _ hM
        _ ≤ loads.sum := hMmul
    have hminT : loads.getD idx 0 ≤ T / M := by
      rw [Nat.le_div_iff_mul_le hM]
      calc loads.getD idx 0 * M = M * loads.getD idx 0 := Nat.mul_comm _ _
        _ ≤ loads.sum := hMmul
        _ ≤ T := by
            have : (p.2 : Nat) + (rest.map Prod.snd).sum ≥ 0 := Nat.zero_le _
            simp only [List.map_cons, List.sum_cons] at hsum
            omega
    -- the new load does not wrap
    have hnowrap : loads.getD idx 0 + p.2 < 2 ^ 64 := by
      simp only [List.map_cons, List.sum_cons] at hsum
      omega
    have hmodid : u64Mod (loads.getD idx 0 + p.2) = loads.getD idx 0 + p.2 :=
      Nat.mod_eq_of_lt hnowrap
    have hstep : assign_mod (loads, batches) p =
        some (loads.set idx (loads.getD idx 0 + p.2),
              batches.set idx ((batches.getD idx []) ++ [p.1])) := by
      simp only [assign_mod, ← hidxdef, if_pos hidx, hmodid]
    have hblen' : (batches.set idx ((batches.getD idx []) ++ [p.1])).length = M := by
      simpa using hblen
    have hlen' : (loads.set idx (loads.getD idx 0 + p.2)).length = M := by
      simpa using hlen
    have hsum' : (loads.set idx (loads.getD idx 0 + p.2)).sum +
        (rest.map Prod.snd).sum ≤ T := by
      have h1 := sum_set_add_old loads idx (loads.getD idx 0 + p.2) hidx
      simp only [List.map_cons, List.sum_cons] at hsum
      omega
    have hbound' : ∀ l ∈ loads.set idx (loads.getD idx 0 + p.2),
        l ≤ T / M + mx := by
      intro l hl
      rcases mem_of_mem_set hl with hl | rfl
      · exact hbound l hl
      · have hpmx : p.2 ≤ mx := hmx p (List.mem_cons_self _ _)
        omega
    have hpair' : ∀ i, i < M →
        (loads.set idx (loads.getD idx 0 + p.2)).getD i 0 =
          (((batches.set idx ((batches.getD idx []) ++ [p.1])).getD i []).map
            (mod_size sz)).sum := by
      intro i hiM
      by_cases hieq : idx = i
      · subst hieq
        rw [getD_set_self _ _ _ _ hidx, getD_set_self _ _ _ _ (by omega)]
        rw [List.map_append, List.sum_append, ← hpair idx (by omega)]
        have : p.2 = mod_size sz p.1 := hsz p (List.mem_cons_self _ _)
        simp [this]
      · rw [getD_set_ne _ _ _ hieq, getD_set_ne _ _ _ hieq]
        exact hpair i hiM
    obtain ⟨st, hst, hstlen, hstbound⟩ :=
      ih (loads.set idx (loads.getD idx 0 + p.2))
        (batches.set idx ((batches.getD idx []) ++ [p.1]))
        hlen' hblen' hsum'
        (fun q hq => hmx q (List.mem_cons_of_mem _ hq))
        (fun q hq => hsz q (List.mem_cons_of_mem _ hq))
        hbound' hpair'
    exact ⟨st, by simpa [greedy_assign, hstep] using hst, hstlen, hstbound⟩

/-- Facts about the sorted list: it is a permutation of the id/size pairs,
so sizes, the total and the maximum carry over. -/
theorem sorted_mods_perm (mod_ids : List String) (sz : String → Option Nat) :
    (sorted_mods mod_ids sz).Perm (mods_with_sizes mod_ids sz) :=
  List.mergeSort_perm _ _

theorem sorted_mods_snd (mod_ids : List String) (sz : String → Option Nat) :
    ∀ p ∈ sorted_mods mod_ids sz, p.2 = mod_size sz p.1 := by
  intro p hp
  have hp' : p ∈ mods_with_sizes mod_ids sz :=
    (sorted_mods_perm mod_ids sz).mem_iff.mp hp
  obtain ⟨id, _, rfl⟩ := List.mem_map.mp hp'
  rfl

theorem sorted_mods_sum (mod_ids : List String) (sz : String → Option Nat) :
    ((sorted_mods mod_ids sz).map Prod.snd).sum = total_size mod_ids sz := by
  have h := ((sorted_mods_perm mod_ids sz).map Prod.snd).sum_eq
  rw [h]
  simp only [mods_with_sizes, total_size, List.map_map]
  rfl

theorem sorted_mods_le_max (mod_ids : List String) (sz : String → Option Nat) :
    ∀ p ∈ sorted_mods mod_ids sz, p.2 ≤ max_size mod_ids sz := by
  intro p hp
  have hp' : p ∈ mods_with_sizes mod_ids sz :=
    (sorted_mods_perm mod_ids sz).mem_iff.mp hp
  obtain ⟨id, hid, rfl⟩ := List.mem_map.mp hp'
  exact le_foldr_max _ _ (List.mem_map_of_mem (mod_size sz) hid)

/-! ### Round-robin characterization -/

/-- `rr_go` succeeds whenever `num_instances > 0`, preserves the number of
batches, and flattens to the processed elements (as a permutation). -/
theorem rr_go_spec (n : Nat) (hn : 0 < n) :
    ∀ (rest : List String) (idx : Nat) (batches : List (List String)),
      batches.length = n →
      ∃ final, rr_go n rest idx batches = some final ∧
        final.length = n ∧ final.flatten.Perm (batches.flatten ++ rest) := by
  intro rest
  induction rest with
  | nil =>
    intro idx batches hblen
    exact ⟨batches, rfl, hblen, by simp⟩
  | cons id rest ih =>
    intro idx batches hblen
    have hi : idx % n < batches.length := by
      rw [hblen]
      exact Nat.mod_lt _ hn
    have hblen' :
        (batches.set (idx % n) ((batches.getD (idx % n) []) ++ [id])).length = n := by
      simpa using hblen
    obtain ⟨final, hfin, hflen, hperm⟩ := ih (idx + 1)
      (batches.set (idx % n) ((batches.getD (idx % n) []) ++ [id])) hblen'
    refine ⟨final, ?_, hflen, ?_⟩
    · simpa [rr_go, Nat.pos_iff_ne_zero.mp hn] using hfin
    · have h2 :=
        (flatten_set_append batches (idx % n) id hi).append_right rest
      have h3 : (batches.flatten ++ [id]) ++ rest =
          batches.flatten ++ (id :: rest) := by simp
      exact hperm.trans (h3 ▸ h2)

/-- Positional characterization: whatever was already in a batch stays there,
and element `k` of the remaining list lands in batch `(idx + k) % n`. -/
theorem rr_go_mem (n : Nat) (hn : 0 < n) :
    ∀ (rest : List String) (idx : Nat) (batches : List (List String)) (final : List (List String)),
      batches.length = n →
      rr_go n rest idx batches = some final →
      (∀ j x, x ∈ batches.getD j [] → x ∈ final.getD j []) ∧
      (∀ k, (h : k < rest.length) → rest[k] ∈ final.getD ((idx + k) % n) []) := by
  intro rest
  induction rest with
  | nil =>
    intro idx batches final _hblen hfin
    simp only [rr_go, Option.some.injEq] at hfin
    subst hfin
    exact ⟨fun j x hx => hx, fun k h => by simp at h⟩
  | cons id rest ih =>
    intro idx batches final hblen hfin
    have hnne : n ≠ 0 := Nat.pos_iff_ne_zero.mp hn
    simp only [rr_go, if_neg hnne] at hfin
    have hi : idx % n < batches.length := by
      rw [hblen]
      exact Nat.mod_lt _ hn
    have hblen' :
        (batches.set (idx % n) ((batches.getD (idx % n) []) ++ [id])).length = n := by
      simpa using hblen
    obtain ⟨hmono, hpos⟩ := ih (idx + 1) _ final hblen' hfin
    have hstep : ∀ j x, x ∈ batches.getD j [] →
        x ∈ (batches.set (idx % n) ((batches.getD (idx % n) []) ++ [id])).getD j [] := by
      intro j x hx
      by_cases hj : idx % n = j
      · subst hj
        rw [getD_set_self _ _ _ _ hi]
        exact List.mem_append_left _ hx
      · rw [getD_set_ne _ _ _ hj]
        exact hx
    refine ⟨fun j x hx => hmono j x (hstep j x hx), ?_⟩
    intro k h
    cases k with
    | zero =>
      have hidin : id ∈ (batches.set (idx % n)
          ((batches.getD (idx % n) []) ++ [id])).getD (idx % n) [] := by
        rw [getD_set_self _ _ _ _ hi]
        exact List.mem_append_right _ (List.mem_singleton_self id)
      simpa using hmono (idx % n) id hidin
    | succ k =>
      have h' : k < rest.length := by simpa using h
      have := hpos k h'
      have harith : (idx + 1 + k) % n = (idx + (k + 1)) % n := by
        ring_nf
      rw [harith] at this
      simpa using this

/-- The greedy loop never fails when there is at least one instance, and its
batches flatten to the processed ids (as a permutation). -/
theorem greedy_assign_total_flatten :
    ∀ (rest : List (String × Nat)) (loads : List Nat)
      (batches : List (List String)),
      0 < loads.length → loads.length = batches.length →
      ∃ st, greedy_assign rest (loads, batches) = some st ∧
        st.2.length = batches.length ∧
        st.2.flatten.Perm (batches.flatten ++ rest.map Prod.fst) := by
  intro rest
  induction rest with
  | nil =>
    intro loads batches _h1 _h2
    exact ⟨(loads, batches), rfl, rfl, by simp⟩
  | cons p rest ih =>
    intro loads batches h1 h2
    have hne : loads ≠ [] := List.ne_nil_of_length_pos h1
    obtain ⟨hidx, _⟩ := min_load_idx_spec loads hne
    set idx := min_load_idx loads with hidxdef
    have hib : idx < batches.length := by omega
    have hstep : assign_mod (loads, batches) p =
        some (loads.set idx (u64Mod (loads.getD idx 0 + p.2)),
              batches.set idx ((batches.getD idx []) ++ [p.1])) := by
      simp only [assign_mod, ← hidxdef, if_pos hidx]
    obtain ⟨st, hst, hlen, hperm⟩ :=
      ih (loads.set idx (u64Mod (loads.getD idx 0 + p.2)))
        (batches.set idx ((batches.getD idx []) ++ [p.1]))
        (by simpa using h1) (by simpa using h2)
    refine ⟨st, by simpa [greedy_assign, hstep] using hst, by simpa using hlen, ?_⟩
    have h2p := (flatten_set_append batches idx p.1 hib).append_right (rest.map Prod.fst)
    have h3 : (batches.flatten ++ [p.1]) ++ rest.map Prod.fst =
        batches.flatten ++ ((p :: rest).map Prod.fst) := by simp
    exact hperm.trans (h3 ▸ h2p)

/-- The sorted pair list projects back to the requested ids, up to
permutation. -/
theorem sorted_mods_fst (mod_ids : List String) (sz : String → Option Nat) :
    ((sorted_mods mod_ids sz).map Prod.fst).Perm mod_ids := by
  have h := (sorted_mods_perm mod_ids sz).map Prod.fst
  have h2 : (mods_with_sizes mod_ids sz).map Prod.fst = mod_ids := by
    simp only [mods_with_sizes, List.map_map]
    exact List.map_id mod_ids
  rwa [h2] at h

/-! ## Claim theorems: the load balancer (C3, C9, C10) -/

/-- C3: for every set of items with known sizes and every instance count
`M ≥ 1`, the partition produced by `balance_mods_by_size` (sort descending by
size, assign each item greedily to the instance with the lowest accumulated
size) has a maximum per-instance accumulated size of at most
`ceil(totalSize / M) + max(itemSize)`.  The hypothesis `total_size < 2^64`
pins the embedding to the regime where the `u64` load accumulators of the
source cannot wrap. -/
theorem claim_C3_greedy_balance_bound (mod_ids : List String)
    (sz : String → Option Nat) (M : Nat) (hM : 0 < M)
    (hfit : total_size mod_ids sz < 2 ^ 64) :
    ∀ bs, balance_mods_by_size mod_ids sz M = some bs →
      ∀ b ∈ bs, (b.map (mod_size sz)).sum ≤
        (total_size mod_ids sz + M - 1) / M + max_size mod_ids sz := by
  intro bs hbs b hb
  obtain ⟨st, hst, _hstlen, hstbound⟩ :=
    greedy_assign_spec sz M (total_size mod_ids sz) (max_size mod_ids sz) hM hfit
      (sorted_mods mod_ids sz)
      (List.replicate M 0) (List.replicate M [])
      (by simp) (by simp)
      (by simp [sorted_mods_sum])
      (sorted_mods_le_max mod_ids sz)
      (sorted_mods_snd mod_ids sz)
      (by intro l hl; simp_all [List.eq_of_mem_replicate hl])
      (by intro i _; simp [List.getD])
  rw [balance_mods_by_size, hst] at hbs
  have hbs' : st.2 = bs := by simpa using hbs
  subst hbs'
  have hb' := hstbound b hb
  have hdiv : total_size mod_ids sz / M ≤ (total_size mod_ids sz + M - 1) / M :=
    Nat.div_le_div_right (by omega)
  omega

/-- C3 witness: the hypotheses are satisfiable at a concrete input. -/
theorem claim_C3_greedy_balance_bound_witness :
    (0 : Nat) < 2 ∧ total_size ["a", "b", "c"] demo_sizes < 2 ^ 64 ∧
    (∀ bs, balance_mods_by_size ["a", "b", "c"] demo_sizes 2 = some bs →
      ∀ b ∈ bs, (b.map (mod_size demo_sizes)).sum ≤
        (total_size ["a", "b", "c"] demo_sizes + 2 - 1) / 2 +
          max_size ["a", "b", "c"] demo_sizes) :=
  ⟨by decide, by decide,
    claim_C3_greedy_balance_bound ["a", "b", "c"] demo_sizes 2 (by decide)
      (by decide)⟩

/-- C9 counterexample: with instance count `0` and a non-empty input the
round-robin balancer is not total — `batches[idx % 0]` panics in the source
(remainder by zero), modelled by `none` — refuting "for every list of item IDs
and every instance count, the Load Balancer is a total ... function with no
failure mode". -/
theorem claim_C9_counterexample :
    balance_mods_round_robin ["1"] 0 = none := rfl

/-- C9 (amended): for every list of item IDs and every instance count `N ≥ 1`
(with `N = 0` and a non-empty input the source panics on `idx % 0`), the
round-robin balancer is total and deterministic: empty input yields `N` empty
batches, and the item at position `i` of the input is assigned to batch
`i mod N`. -/
theorem claim_C9_round_robin_total (mod_ids : List String) (n : Nat)
    (hn : 0 < n) :
    ∃ bs, balance_mods_round_robin mod_ids n = some bs ∧
      bs.length = n ∧
      (mod_ids = [] → bs = List.replicate n []) ∧
      ∀ k, (h : k < mod_ids.length) → mod_ids[k] ∈ bs.getD (k % n) [] := by
  obtain ⟨final, hfin, hflen, _⟩ :=
    rr_go_spec n hn mod_ids 0 (List.replicate n []) (by simp)
  obtain ⟨_, hpos⟩ := rr_go_mem n hn mod_ids 0 (List.replicate n []) final
    (by simp) hfin
  refine ⟨final, hfin, hflen, ?_, ?_⟩
  · intro hnil
    subst hnil
    simpa [rr_go] using hfin.symm
  · intro k h
    have := hpos k h
    simpa using this

/-- C9 witness: the amended claim holds at a concrete input. -/
theorem claim_C9_round_robin_total_witness :
    (0 : Nat) < 2 ∧
    (∃ bs, balance_mods_round_robin ["x", "y", "z"] 2 = some bs ∧
      bs.length = 2 ∧
      (["x", "y", "z"] = ([] : List String) → bs = List.replicate 2 []) ∧
      ∀ k, (h : k < (["x", "y", "z"] : List String).length) →
        (["x", "y", "z"] : List String)[k] ∈ bs.getD (k % 2) []) :=
  ⟨by decide, claim_C9_round_robin_total ["x", "y", "z"] 2 (by decide)⟩

/-- C10: for every list of item IDs and every instance count `N ≥ 1`, both
partitioning functions return exactly `N` batches whose concatenation contains
each input ID exactly once — no ID dropped, none duplicated — so the sum of
the batch lengths equals the input length. -/
theorem claim_C10_partition_exact (mod_ids : List String)
    (sz : String → Option Nat) (n : Nat) (hn : 0 < n) :
    (∃ bs, balance_mods_round_robin mod_ids n = some bs ∧ bs.length = n ∧
      bs.flatten.Perm mod_ids ∧ (bs.map List.length).sum = mod_ids.length) ∧
    (∃ bs, balance_mods_by_size mod_ids sz n = some bs ∧ bs.length = n ∧
      bs.flatten.Perm mod_ids ∧ (bs.map List.length).sum = mod_ids.length) := by
  constructor
  · obtain ⟨final, hfin, hflen, hperm⟩ :=
      rr_go_spec n hn mod_ids 0 (List.replicate n []) (by simp)
    have hperm' : final.flatten.Perm mod_ids := by simpa using hperm
    refine ⟨final, hfin, hflen, hperm', ?_⟩
    rw [← List.length_flatten]
    exact hperm'.length_eq
  · obtain ⟨st, hst, hstlen, hperm⟩ :=
      greedy_assign_total_flatten (sorted_mods mod_ids sz)
        (List.replicate n 0) (List.replicate n []) (by simpa using hn)
        (by simp)
    have hperm' : st.2.flatten.Perm mod_ids := by
      have h1 : st.2.flatten.Perm ((sorted_mods mod_ids sz).map Prod.fst) := by
        simpa using hperm
      exact h1.trans (sorted_mods_fst mod_ids sz)
    refine ⟨st.2, ?_, by simpa using hstlen, hperm', ?_⟩
    · rw [balance_mods_by_size, hst]
      rfl
    · rw [← List.length_flatten]
      exact hperm'.length_eq

/-! ### Stage lemmas for `sanitize_folder_name` -/

/-- Words produced by the splitter are non-empty, whitespace-free, and use only
input characters. -/
theorem split_ws_aux_spec (cs : List Char) :
    ∀ acc, (∀ c ∈ acc, rust_is_whitespace c = false) →
      ∀ w ∈ split_ws_aux cs acc,
        w ≠ [] ∧ ∀ c ∈ w, rust_is_whitespace c = false ∧ (c ∈ cs ∨ c ∈ acc) := by
  induction cs with
  | nil =>
    intro acc hacc w hw
    by_cases h : acc = []
    · simp [split_ws_aux, h] at hw
    · simp only [split_ws_aux, if_neg h, List.mem_singleton] at hw
      subst hw
      refine ⟨by simpa using h, ?_⟩
      intro c hc
      rw [List.mem_reverse] at hc
      exact ⟨hacc c hc, Or.inr hc⟩
  | cons a cs ih =>
    intro acc hacc w hw
    by_cases hws : rust_is_whitespace a = true
    · by_cases h : acc = []
      · simp only [split_ws_aux, if_pos hws, if_pos h] at hw
        obtain ⟨hne, hrest⟩ := ih [] (by simp) w hw
        refine ⟨hne, ?_⟩
        intro c hc
        obtain ⟨hcws, hcmem⟩ := hrest c hc
        rcases hcmem with hcmem | hcmem
        · exact ⟨hcws, Or.inl (List.mem_cons_of_mem _ hcmem)⟩
        · simp at hcmem
      · simp only [split_ws_aux, if_pos hws, if_neg h, List.mem_cons] at hw
        rcases hw with rfl | hw
        · refine ⟨by simpa using h, ?_⟩
          intro c hc
          rw [List.mem_reverse] at hc
          exact ⟨hacc c hc, Or.inr hc⟩
        · obtain ⟨hne, hrest⟩ := ih [] (by simp) w hw
          refine ⟨hne, ?_⟩
          intro c hc
          obtain ⟨hcws, hcmem⟩ := hrest c hc
          rcases hcmem with hcmem | hcmem
          · exact ⟨hcws, Or.inl (List.mem_cons_of_mem _ hcmem)⟩
          · simp at hcmem
    · have hwsf : rust_is_whitespace a = false := by
        simpa using hws
      simp only [split_ws_aux, hwsf] at hw
      simp only [Bool.false_eq_true, if_false] at hw
      obtain ⟨hne, hrest⟩ := ih (a :: acc)
        (by
          intro c hc
          rcases List.mem_cons.mp hc with rfl | hc
          · exact hwsf
          · exact hacc c hc) w hw
      refine ⟨hne, ?_⟩
      intro c hc
      obtain ⟨hcws, hcmem⟩ := hrest c hc
      rcases hcmem with hcmem | hcmem
      · exact ⟨hcws, Or.inl (List.mem_cons_of_mem _ hcmem)⟩
      · rcases List.mem_cons.mp hcmem with rfl | hcmem
        · exact ⟨hcws, Or.inl (List.mem_cons_self _ _)⟩
        · exact ⟨hcws, Or.inr hcmem⟩

/-- A list without whitespace trivially has no adjacent whitespace pair. -/
theorem chain'_of_no_ws (l : List Char)
    (h : ∀ c ∈ l, rust_is_whitespace c = false) :
    List.Chain' no_ws_pair l := by
  induction l with
  | nil => simp
  | cons a l ih =>
    rw [List.chain'_cons']
    refine ⟨?_, ih (fun c hc => h c (List.mem_cons_of_mem _ hc))⟩
    intro y _
    intro hcon
    rw [h a (List.mem_cons_self _ _)] at hcon
    simp at hcon

theorem join_ws_ne_nil (w : List Char) (tail : List (List Char)) (hw : w ≠ []) :
    join_ws (w :: tail) ≠ [] := by
  cases tail with
  | nil => simpa [join_ws] using hw
  | cons w' ws => simp [join_ws, hw]

theorem join_ws_head (w : List Char) (tail : List (List Char)) :
    w ≠ [] → (join_ws (w :: tail)).head? = w.head? := by
  intro hw
  cases tail with
  | nil => rfl
  | cons w' ws =>
    show ((w ++ ' ' :: join_ws (w' :: ws))).head? = w.head?
    rw [List.head?_append]
    cases hhd : w.head? with
    | none => simp at hhd; exact absurd hhd hw
    | some c => rfl

/-- Characters of the joined string are word characters or single spaces. -/
theorem join_ws_mem (ws : List (List Char)) :
    ∀ c ∈ join_ws ws, (∃ w ∈ ws, c ∈ w) ∨ c = ' ' := by
  induction ws with
  | nil => simp [join_ws]
  | cons w tail ih =>
    intro c hc
    cases tail with
    | nil =>
      exact Or.inl ⟨w, List.mem_cons_self _ _, by simpa [join_ws] using hc⟩
    | cons w' ws' =>
      simp only [join_ws] at hc
      rcases List.mem_append.mp hc with hc | hc
      · exact Or.inl ⟨w, List.mem_cons_self _ _, hc⟩
      · rcases List.mem_cons.mp hc with rfl | hc
        · exact Or.inr rfl
        · rcases ih c hc with ⟨u, hu, hcu⟩ | hsp
          · exact Or.inl ⟨u, List.mem_cons_of_mem _ hu, hcu⟩
          · exact Or.inr hsp

/-- The joined string ends with the last character of some word. -/
theorem join_ws_getLast (ws : List (List Char)) (hne : ∀ w ∈ ws, w ≠ []) :
    ws = [] ∨ ∃ u ∈ ws, (join_ws ws).getLast? = u.getLast? := by
  induction ws with
  | nil => exact Or.inl rfl
  | cons w tail ih =>
    refine Or.inr ?_
    cases tail with
    | nil => exact ⟨w, List.mem_cons_self _ _, rfl⟩
    | cons w' ws' =>
      have hw' : w' ≠ [] := hne w' (List.mem_cons_of_mem _ (List.mem_cons_self _ _))
      rcases ih (fun u hu => hne u (List.mem_cons_of_mem _ hu)) with hcon | ⟨u, hu, hul⟩
      · simp at hcon
      · refine ⟨u, List.mem_cons_of_mem _ hu, ?_⟩
        show ((w ++ ' ' :: join_ws (w' :: ws'))).getLast? = u.getLast?
        rw [List.getLast?_append]
        have hjne : join_ws (w' :: ws') ≠ [] := join_ws_ne_nil w' ws' hw'
        have hstep : (' ' :: join_ws (w' :: ws')).getLast? =
            (join_ws (w' :: ws')).getLast? := by
          cases hj : join_ws (w' :: ws') with
          | nil => exact absurd hj hjne
          | cons x xs => exact List.getLast?_cons_cons
        rw [hstep, hul]
        have hune : u ≠ [] := hne u (List.mem_cons_of_mem _ hu)
        cases hu' : u.getLast? with
        | none =>
          rw [List.getLast?_eq_none_iff] at hu'
          exact absurd hu' hune
        | some c => rfl

/-- The joined string has no two adjacent whitespace characters. -/
theorem join_ws_chain' (ws : List (List Char)) (hne : ∀ w ∈ ws, w ≠ [])
    (hnw : ∀ w ∈ ws, ∀ c ∈ w, rust_is_whitespace c = false) :
    List.Chain' no_ws_pair (join_ws ws) := by
  induction ws with
  | nil => simp [join_ws]
  | cons w tail ih =>
    cases tail with
    | nil =>
      exact chain'_of_no_ws w (hnw w (List.mem_cons_self _ _))
    | cons w' ws' =>
      show List.Chain' no_ws_pair (w ++ ' ' :: join_ws (w' :: ws'))
      rw [List.chain'_append]
      have hw' : w' ≠ [] := hne w' (by simp)
      refine ⟨chain'_of_no_ws w (hnw w (List.mem_cons_self _ _)), ?_, ?_⟩
      · rw [List.chain'_cons']
        refine ⟨?_, ih (fun u hu => hne u (List.mem_cons_of_mem _ hu))
          (fun u hu => hnw u (List.mem_cons_of_mem _ hu))⟩
        intro y hy
        rw [join_ws_head w' ws' hw'] at hy
        have hyw : y ∈ w' := List.mem_of_mem_head? hy
        intro hcon
        rw [hnw w' (by simp) y hyw] at hcon
        simp at hcon
      · intro x hx y hy
        have hxw : x ∈ w := List.mem_of_mem_getLast? hx
        intro hcon
        rw [hnw w (List.mem_cons_self _ _) x hxw] at hcon
        simp at hcon

/-- Trimming only removes characters. -/
theorem trim_by_sublist (p : Char → Bool) (l : List Char) :
    (trim_by p l).Sublist l := by
  unfold trim_by
  have h1 : ((l.dropWhile p).reverse.dropWhile p).Sublist (l.dropWhile p).reverse :=
    List.dropWhile_sublist p
  have h2 : ((l.dropWhile p).reverse.dropWhile p).reverse.Sublist
      (l.dropWhile p).reverse.reverse := h1.reverse
  rw [List.reverse_reverse] at h2
  exact h2.trans (List.dropWhile_sublist p)

theorem mem_of_mem_trim_by {p : Char → Bool} {l : List Char} {c : Char}
    (h : c ∈ trim_by p l) : c ∈ l :=
  (trim_by_sublist p l).mem h

/-- Dropping a matched front keeps the absence of adjacent whitespace. -/
theorem chain'_dropWhile (p : Char → Bool) (l : List Char)
    (h : List.Chain' no_ws_pair l) :
    List.Chain' no_ws_pair (l.dropWhile p) := by
  induction l with
  | nil => simp
  | cons a l ih =>
    rw [List.dropWhile_cons]
    by_cases hp : p a = true
    · rw [if_pos hp]
      exact ih h.tail
    · rw [if_neg hp]
      exact h

/-- Trimming keeps the absence of adjacent whitespace. -/
theorem trim_by_chain' (p : Char → Bool) (l : List Char)
    (h : List.Chain' no_ws_pair l) :
    List.Chain' no_ws_pair (trim_by p l) := by
  have hsym : ∀ a b : Char, no_ws_pair a b → no_ws_pair b a := by
    intro a b hab hcon
    exact hab ⟨hcon.2, hcon.1⟩
  have h1 : List.Chain' no_ws_pair (l.dropWhile p) := chain'_dropWhile p l h
  have h2 : List.Chain' (flip no_ws_pair) (l.dropWhile p) := h1.imp hsym
  have h3 : List.Chain' no_ws_pair (l.dropWhile p).reverse :=
    List.chain'_reverse.mpr h2
  have h4 : List.Chain' no_ws_pair ((l.dropWhile p).reverse.dropWhile p) :=
    chain'_dropWhile p _ h3
  have h5 : List.Chain' (flip no_ws_pair) ((l.dropWhile p).reverse.dropWhile p) :=
    h4.imp hsym
  exact List.chain'_reverse.mpr h5

/-- A surviving head of `dropWhile` does not match the predicate. -/
theorem head?_dropWhile_false (p : Char → Bool) (l : List Char) (c : Char)
    (h : (l.dropWhile p).head? = some c) : p c = false := by
  have := List.head?_dropWhile_not p l
  rw [h] at this
  exact this

/-- If the whole result of `dropWhile` survives, it ends like the input. -/
theorem getLast?_dropWhile_of_ne_nil (p : Char → Bool) (l : List Char)
    (h : l.dropWhile p ≠ []) : (l.dropWhile p).getLast? = l.getLast? := by
  induction l with
  | nil => simp at h
  | cons a l ih =>
    rw [List.dropWhile_cons] at h ⊢
    by_cases hp : p a = true
    · rw [if_pos hp] at h ⊢
      have hlne : l ≠ [] := by
        intro hcon
        subst hcon
        simp at h
      rw [ih h]
      cases l with
      | nil => exact absurd rfl hlne
      | cons b t => exact List.getLast?_cons_cons.symm
    · rw [if_neg hp]

/-- The last character of a trimmed string does not match the predicate. -/
theorem trim_by_getLast_false (p : Char → Bool) (l : List Char) (c : Char)
    (h : (trim_by p l).getLast? = some c) : p c = false := by
  unfold trim_by at h
  rw [List.getLast?_reverse] at h
  exact head?_dropWhile_false p _ c h

/-- The head of a trimmed string does not match the predicate. -/
theorem trim_by_head_false (p : Char → Bool) (l : List Char) (c : Char)
    (h : (trim_by p l).head? = some c) : p c = false := by
  unfold trim_by at h
  rw [List.head?_reverse] at h
  have hne : (l.dropWhile p).reverse.dropWhile p ≠ [] := by
    intro hcon
    rw [hcon] at h
    simp at h
  rw [getLast?_dropWhile_of_ne_nil p _ hne, List.getLast?_reverse] at h
  exact head?_dropWhile_false p l c h

/-- `dropWhile` over an appended unmatched singleton. -/
theorem dropWhile_append_singleton (p : Char → Bool) (u : List Char) (c : Char)
    (hc : p c = false) : (u ++ [c]).dropWhile p = u.dropWhile p ++ [c] := by
  induction u with
  | nil => simp [List.dropWhile_cons, hc]
  | cons a u ih =>
    by_cases hp : p a = true
    · simp only [List.cons_append, List.dropWhile_cons, if_pos hp]
      exact ih
    · simp only [List.cons_append, List.dropWhile_cons, if_neg hp]

/-- Trimming a string whose head is unmatched keeps the head (and the result
is non-empty). -/
theorem trim_by_cons_false (p : Char → Bool) (c : Char) (t : List Char)
    (hc : p c = false) :
    trim_by p (c :: t) = c :: (t.reverse.dropWhile p).reverse := by
  unfold trim_by
  rw [List.dropWhile_cons, if_neg (by simp [hc])]
  rw [List.reverse_cons, dropWhile_append_singleton p _ c hc]
  simp

/-- A successful `truncate_bytes` returns a front part of the input within the
byte budget. -/
theorem truncate_bytes_spec (l : List Char) :
    ∀ (n : Nat) (r : List Char), truncate_bytes n l = some r →
      byte_len r ≤ n ∧ ∃ s, l = r ++ s := by
  induction l with
  | nil =>
    intro n r h
    simp only [truncate_bytes, Option.some.injEq] at h
    subst h
    exact ⟨by simp [byte_len], [], rfl⟩
  | cons c cs ih =>
    intro n r h
    simp only [truncate_bytes] at h
    by_cases hn : n = 0
    · rw [if_pos hn] at h
      obtain rfl : ([] : List Char) = r := by simpa using h
      exact ⟨by simp [byte_len, hn], c :: cs, rfl⟩
    · rw [if_neg hn] at h
      by_cases hsz : c.utf8Size ≤ n
      · rw [if_pos hsz] at h
        rw [Option.map_eq_some'] at h
        obtain ⟨r0, hr0, rfl⟩ := h
        obtain ⟨hlen, s, hs⟩ := ih (n - c.utf8Size) r0 hr0
        refine ⟨?_, s, by rw [hs]; rfl⟩
        simp only [byte_len, List.map_cons, List.sum_cons]
        have : byte_len r0 ≤ n - c.utf8Size := hlen
        simp only [byte_len] at this
        omega
      · rw [if_neg hsz] at h
        simp at h

/-- Sublists cannot be longer in bytes. -/
theorem byte_len_sublist {l₁ l₂ : List Char} (h : l₁.Sublist l₂) :
    byte_len l₁ ≤ byte_len l₂ :=
  (h.map Char.utf8Size).sum_le_sum (by intro a _; exact Nat.zero_le a)

set_option maxRecDepth 10000 in
/-- C8 counterexample: three concrete inputs refute the claim as stated.
First, `"a\x7F b"`-style input: `\x7F` (DEL) is a control character but is
retained (the filter removes only `\x00..\x1F`), so "control characters have
been removed" fails.  Second, 199 `a`s followed by two `é`s: the sanitized
string is 203 bytes, and byte 200 falls inside a 2-byte character, so
`String::truncate(200)` panics — "returns (without panicking)" fails.  Third,
199 `a`s followed by `".b"`: truncation cuts right after the dot and the final
re-trim removes only whitespace, so the result ends with `'.'` — "trailing
dots ... trimmed" fails. -/
theorem claim_C8_counterexample :
    sanitize_folder_name ['a', '\x7F', 'b'] = some ['a', '\x7F', 'b'] ∧
    sanitize_folder_name (List.replicate 199 'a' ++ ['é', 'é']) = none ∧
    (sanitize_folder_name (List.replicate 199 'a' ++ ['.', 'b'])).map
      List.getLast? = some (some '.') := by
  refine ⟨by decide, by decide, by decide⟩

/-- C8 (amended): whenever `sanitize_folder_name` returns (it panics exactly
when the sanitized string exceeds 200 bytes and byte 200 is not a character
boundary), the result is non-empty (with fallback `"Mod"`), at most 200 bytes,
contains neither the filesystem-illegal characters nor C0 control characters
(`\x00..\x1F`; `\x7F` and C1 controls may remain), has all whitespace
collapsed to single non-adjacent spaces, does not start with whitespace or a
dot, and does not end with whitespace (a trailing dot can survive the
200-byte cut). -/
theorem claim_C8_sanitize_properties (name r : List Char)
    (h : sanitize_folder_name name = some r) :
    r ≠ [] ∧ byte_len r ≤ 200 ∧
    (∀ c ∈ r, rust_illegal c = false) ∧
    (∀ c ∈ r, rust_is_whitespace c = true → c = ' ') ∧
    List.Chain' no_ws_pair r ∧
    (∀ c, r.head? = some c → rust_is_whitespace c = false ∧ c ≠ '.') ∧
    (∀ c, r.getLast? = some c → rust_is_whitespace c = false) := by
  simp only [sanitize_folder_name] at h
  set s1 := name.filter (fun c => !(rust_illegal c)) with hs1
  set s2 := join_ws (split_whitespace s1) with hs2
  set s3 := trim_by rust_is_whitespace s2 with hs3
  set s4 := trim_by (fun c => decide (c = '.') || rust_is_whitespace c) s3 with hs4
  clear_value s4
  have hwords := split_ws_aux_spec s1 [] (by simp)
  have hmem2 : ∀ c ∈ s2,
      rust_illegal c = false ∧ (rust_is_whitespace c = true → c = ' ') := by
    intro c hc
    rcases join_ws_mem _ c hc with ⟨w, hw, hcw⟩ | rfl
    · obtain ⟨_hwne, hwc⟩ := hwords w hw
      obtain ⟨hcws, hcmem⟩ := hwc c hcw
      rcases hcmem with hcmem | hcmem
      · have hf := List.mem_filter.mp hcmem
        refine ⟨by simpa using hf.2, ?_⟩
        intro hcon
        rw [hcon] at hcws
        simp at hcws
      · simp at hcmem
    · exact ⟨by decide, fun _ => rfl⟩
  have hchain2 : List.Chain' no_ws_pair s2 := by
    refine join_ws_chain' _ (fun w hw => (hwords w hw).1) ?_
    intro w hw c hc
    exact ((hwords w hw).2 c hc).1
  have hmem4 : ∀ c ∈ s4,
      rust_illegal c = false ∧ (rust_is_whitespace c = true → c = ' ') := by
    intro c hc
    rw [hs4] at hc
    exact hmem2 c (mem_of_mem_trim_by (mem_of_mem_trim_by hc))
  have hchain4 : List.Chain' no_ws_pair s4 := by
    rw [hs4]
    exact trim_by_chain' _ _ (trim_by_chain' _ _ hchain2)
  by_cases hempty : s4 = []
  · rw [if_pos hempty] at h
    obtain rfl : (['M', 'o', 'd'] : List Char) = r := by simpa using h
    refine ⟨by decide, by decide, by decide, by decide, ?_, ?_, ?_⟩
    · simp only [List.chain'_cons, List.chain'_singleton, no_ws_pair, and_true]
      decide
    · intro c hc
      have hc' : 'M' = c := by simpa using hc
      subst hc'
      exact ⟨by decide, by decide⟩
    · intro c hc
      have hc' : 'd' = c := by simpa using hc
      subst hc'
      decide
  · rw [if_neg hempty] at h
    -- the head of `s4` is neither a dot nor whitespace
    obtain ⟨c0, t0, rfl⟩ : ∃ c0 t0, s4 = c0 :: t0 := by
      cases hsx : s4 with
      | nil => exact absurd hsx hempty
      | cons c0 t0 => exact ⟨c0, t0, rfl⟩
    have hp40 : (decide (c0 = '.') || rust_is_whitespace c0) = false := by
      refine trim_by_head_false
        (fun c => decide (c = '.') || rust_is_whitespace c) s3 c0 ?_
      rw [← hs4]
      rfl
    have hc0dot : c0 ≠ '.' := by
      intro hcon
      rw [hcon] at hp40
      simp at hp40
    have hc0ws : rust_is_whitespace c0 = false := by
      rcases Bool.or_eq_false_iff.mp hp40 with ⟨_, h2⟩
      exact h2
    by_cases hbig : byte_len (c0 :: t0) > 200
    · rw [if_pos hbig] at h
      rw [Option.map_eq_some'] at h
      obtain ⟨r0, hr0, rfl⟩ := h
      -- `truncate_bytes 200` keeps the head character
      have h200 : c0.utf8Size ≤ 200 := by
        have := Char.utf8Size_le_four c0
        omega
      simp only [truncate_bytes, if_neg (by omega : ¬(200 : Nat) = 0),
        if_pos h200, Option.map_eq_some'] at hr0
      obtain ⟨r1, hr1, rfl⟩ := hr0
      obtain ⟨hblen, s, hs⟩ := truncate_bytes_spec t0 (200 - c0.utf8Size) r1 hr1
      have hr0chain : List.Chain' no_ws_pair (c0 :: r1) := by
        have : (c0 :: t0) = (c0 :: r1) ++ s := by rw [hs]; rfl
        rw [this] at hchain4
        exact (List.chain'_append.mp hchain4).1
      have hr0mem : ∀ c ∈ c0 :: r1, c ∈ c0 :: t0 := by
        intro c hc
        rcases List.mem_cons.mp hc with rfl | hc
        · exact List.mem_cons_self _ _
        · rw [hs]
          exact List.mem_cons_of_mem _ (List.mem_append_left _ hc)
      have htrim := trim_by_cons_false rust_is_whitespace c0 r1 hc0ws
      refine ⟨?_, ?_, ?_, ?_, ?_, ?_, ?_⟩
      · rw [htrim]
        simp
      · have h1 : byte_len (trim_by rust_is_whitespace (c0 :: r1)) ≤
            byte_len (c0 :: r1) := byte_len_sublist (trim_by_sublist _ _)
        have h2 : byte_len (c0 :: r1) ≤ 200 := by
          simp only [byte_len, List.map_cons, List.sum_cons]
          simp only [byte_len] at hblen
          omega
        omega
      · intro c hc
        exact (hmem4 c (hr0mem c (mem_of_mem_trim_by hc))).1
      · intro c hc
        exact (hmem4 c (hr0mem c (mem_of_mem_trim_by hc))).2
      · exact trim_by_chain' _ _ hr0chain
      · intro c hc
        rw [htrim] at hc
        have hc' : c0 = c := by simpa using hc
        subst hc'
        exact ⟨hc0ws, hc0dot⟩
      · intro c hc
        exact trim_by_getLast_false _ _ _ hc
    · rw [if_neg hbig] at h
      obtain rfl : (c0 :: t0) = r := by simpa using h
      refine ⟨hempty, by omega, ?_, ?_, hchain4, ?_, ?_⟩
      · intro c hc
        exact (hmem4 c hc).1
      · intro c hc
        exact (hmem4 c hc).2
      · intro c hc
        have hc' : c0 = c := by simpa using hc
        subst hc'
        exact ⟨hc0ws, hc0dot⟩
      · intro c hc
        have hp4 := trim_by_getLast_false
          (fun c => decide (c = '.') || rust_is_whitespace c) s3 c
          (by rw [← hs4]; exact hc)
        exact (Bool.or_eq_false_iff.mp hp4).2

/-- C8 witness: the amended claim applies at a concrete input. -/
theorem claim_C8_sanitize_properties_witness :
    sanitize_folder_name ['M', 'y', ' ', 'M', 'o', 'd'] =
        some ['M', 'y', ' ', 'M', 'o', 'd'] ∧
    (['M', 'y', ' ', 'M', 'o', 'd'] : List Char) ≠ [] ∧
    byte_len ['M', 'y', ' ', 'M', 'o', 'd'] ≤ 200 ∧
    (∀ c ∈ (['M', 'y', ' ', 'M', 'o', 'd'] : List Char), rust_illegal c = false) ∧
    (∀ c ∈ (['M', 'y', ' ', 'M', 'o', 'd'] : List Char),
      rust_is_whitespace c = true → c = ' ') ∧
    List.Chain' no_ws_pair ['M', 'y', ' ', 'M', 'o', 'd'] ∧
    (∀ c, (['M', 'y', ' ', 'M', 'o', 'd'] : List Char).head? = some c →
      rust_is_whitespace c = false ∧ c ≠ '.') ∧
    (∀ c, (['M', 'y', ' ', 'M', 'o', 'd'] : List Char).getLast? = some c →
      rust_is_whitespace c = false) := by
  have h : sanitize_folder_name ['M', 'y', ' ', 'M', 'o', 'd'] =
      some ['M', 'y', ' ', 'M', 'o', 'd'] := by decide
  have hp := claim_C8_sanitize_properties ['M', 'y', ' ', 'M', 'o', 'd']
    ['M', 'y', ' ', 'M', 'o', 'd'] h
  exact ⟨h, hp.1, hp.2.1, hp.2.2.1, hp.2.2.2.1, hp.2.2.2.2.1, hp.2.2.2.2.2.1,
    hp.2.2.2.2.2.2⟩

/-- C10 witness: the hypothesis `0 < N` is satisfiable at a concrete input. -/
theorem claim_C10_partition_exact_witness :
    (0 : Nat) < 2 ∧
    ((∃ bs, balance_mods_round_robin ["a", "b", "c"] 2 = some bs ∧
        bs.length = 2 ∧ bs.flatten.Perm ["a", "b", "c"] ∧
        (bs.map List.length).sum = (["a", "b", "c"] : List String).length) ∧
      (∃ bs, balance_mods_by_size ["a", "b", "c"] demo_sizes 2 = some bs ∧
        bs.length = 2 ∧ bs.flatten.Perm ["a", "b", "c"] ∧
        (bs.map List.length).sum = (["a", "b", "c"] : List String).length)) :=
  ⟨by decide, claim_C10_partition_exact ["a", "b", "c"] demo_sizes 2 (by decide)⟩

/-! ### The rename loop (claims C7, C4) -/

theorem byte_len_append (l₁ l₂ : List Char) :
    byte_len (l₁ ++ l₂) = byte_len l₁ + byte_len l₂ := by
  simp [byte_len]

theorem byte_len_replicate_underscore (n : Nat) :
    byte_len (List.replicate n '_') = n := by
  have h1 : ('_').utf8Size = 1 := by decide
  simp [byte_len, List.map_replicate, List.sum_replicate, h1]

/-- Characterization of the rename loop: starting from `base` plus `k`
underscores with `fuel + k = 51`, the loop exits within the fuel.  The final
`folder_name` is either `base` plus `j` underscores (for some `k < j ≤ 51`),
with `proposed_path` equal to it, or the `base_modid` fallback, with
`proposed_path` left stale at the last colliding name `base` plus 51
underscores. -/
theorem rename_loop_go_spec (env : ModsDir) (base mod_id : FolderName)
    (check_pkg : Option FolderName) :
    ∀ (fuel k : Nat), 1 ≤ fuel → fuel + k = 51 →
      ∃ r pp, rename_loop_go env base mod_id check_pkg fuel
          (base ++ List.replicate k '_') = some (r, pp) ∧
        ((∃ j, k + 1 ≤ j ∧ j ≤ 51 ∧ r = base ++ List.replicate j '_' ∧
            pp = r) ∨
          (r = base ++ '_' :: mod_id ∧
            pp = base ++ List.replicate 51 '_')) := by
  intro fuel
  induction fuel with
  | zero =>
    intro k h1 _
    omega
  | succ fuel ih =>
    intro k _h1 h2
    have happ : (base ++ List.replicate k '_') ++ ['_'] =
        base ++ List.replicate (k + 1) '_' := by
      rw [List.append_assoc, ← List.replicate_succ']
    have hblen : byte_len (base ++ List.replicate (k + 1) '_') =
        byte_len base + (k + 1) := by
      rw [byte_len_append, byte_len_replicate_underscore]
    simp only [rename_loop_go, happ]
    by_cases hex : env.pathExists (base ++ List.replicate (k + 1) '_') = true
    · simp only [hex, Bool.not_true, Bool.false_eq_true, if_false]
      by_cases hpkg : (check_pkg.isSome &&
          (env.packageId (base ++ List.replicate (k + 1) '_') == check_pkg)) = true
      · rw [if_pos hpkg]
        exact ⟨_, _, rfl, Or.inl ⟨k + 1, le_refl _, by omega, rfl, rfl⟩⟩
      · rw [if_neg hpkg]
        by_cases hsafe : byte_len (base ++ List.replicate (k + 1) '_') >
            byte_len base + 50
        · rw [if_pos hsafe]
          rw [hblen] at hsafe
          have hk51 : k + 1 = 51 := by omega
          refine ⟨_, _, rfl, Or.inr ⟨rfl, ?_⟩⟩
          rw [hk51]
        · rw [if_neg hsafe]
          rw [hblen] at hsafe
          have hk : k + 1 ≤ 50 := by omega
          obtain ⟨r, pp, hr, hshape⟩ := ih (k + 1) (by omega) (by omega)
          refine ⟨r, pp, hr, ?_⟩
          rcases hshape with ⟨j, hj1, hj2, rfl, rfl⟩ | ⟨rfl, rfl⟩
          · exact Or.inl ⟨j, by omega, hj2, rfl, rfl⟩
          · exact Or.inr ⟨rfl, rfl⟩
    · simp only [Bool.not_eq_true] at hex
      simp only [hex, Bool.not_false, if_true]
      exact ⟨_, _, rfl, Or.inl ⟨k + 1, le_refl _, by omega, rfl, rfl⟩⟩

/-- The rename loop always returns, and the final folder name appends 1 to 51
underscores to the base or is the `base_modid` fallback. -/
theorem rename_loop_spec (env : ModsDir) (base mod_id : FolderName)
    (check_pkg : Option FolderName) :
    ∃ r, rename_loop env base mod_id check_pkg = some r ∧
      ((∃ j, 1 ≤ j ∧ j ≤ 51 ∧ r = base ++ List.replicate j '_') ∨
        r = base ++ '_' :: mod_id) := by
  obtain ⟨r, pp, hgo, hshape⟩ := rename_loop_go_spec env base mod_id check_pkg
    51 0 (by omega) (by omega)
  have hgo' : rename_loop_go env base mod_id check_pkg 51 base =
      some (r, pp) := by
    simpa using hgo
  refine ⟨r, ?_, ?_⟩
  · simp only [rename_loop, hgo', Option.map_some']
  · rcases hshape with ⟨j, hj1, hj2, hr, _⟩ | ⟨hr, _⟩
    · exact Or.inl ⟨j, hj1, hj2, hr⟩
    · exact Or.inr hr

/-- The rename loop never returns the unchanged base name. -/
theorem rename_loop_ne_base (env : ModsDir) (base mod_id : FolderName)
    (check_pkg : Option FolderName) (r : FolderName)
    (h : rename_loop env base mod_id check_pkg = some r) : r ≠ base := by
  obtain ⟨r', hr', hshape⟩ := rename_loop_spec env base mod_id check_pkg
  rw [h] at hr'
  obtain rfl : r' = r := by
    injection hr' with hval
    exact hval.symm
  rcases hshape with ⟨j, hj1, _, rfl⟩ | rfl
  · intro hcon
    have hlen := congrArg List.length hcon
    simp at hlen
    omega
  · intro hcon
    have hlen := congrArg List.length hcon
    simp at hlen

/-- C7 (amended): for every pre-existing configuration of destination folder
names — including adversarial chains of colliding names — and for both shapes
of the loop (with and without the packageId break), the suffix-appending
collision-resolution loop of `update_mod` terminates within 51 iterations and
produces a final folder name: either the base with `j` appended underscores
for some `1 ≤ j ≤ 51`, or, once the name exceeds the base length by more than
50 bytes while still colliding, the base with the item id appended directly.
(The claim's bound of "at most 50 appended characters before the item-id
fallback" is off by one — see the counterexample — the exact bound is 51.) -/
theorem claim_C7_rename_loop_terminates (env : ModsDir)
    (base mod_id : FolderName) (check_pkg : Option FolderName) :
    ∃ r, rename_loop env base mod_id check_pkg = some r ∧
      ((∃ j, 1 ≤ j ∧ j ≤ 51 ∧ r = base ++ List.replicate j '_') ∨
        r = base ++ '_' :: mod_id) :=
  rename_loop_spec env base mod_id check_pkg

set_option maxRecDepth 4000 in
/-- C7 counterexample: when every folder name of at most 51 characters exists,
the loop starting from the one-character base `"A"` returns `"A"` followed by
51 underscores — 51 appended characters, not at most 50, and without the item
id appended — refuting the claim's "(at most the safety bound of 50 appended
characters beyond the base name, after which the item ID is appended to the
base name directly)". -/
theorem claim_C7_counterexample :
    rename_loop deep_collision_dir ['A'] ['9'] none =
        some ('A' :: List.replicate 51 '_') ∧
    ('A' :: List.replicate 51 '_' : FolderName) ≠ ['A'] ++ '_' :: ['9'] ∧
    ('A' :: List.replicate 51 '_' : FolderName).length = 1 + 51 := by
  refine ⟨by decide, by decide, by decide⟩

/-! ### The corruption gate (claim C4) -/

/-- C4 counterexample: a caller-supplied folder name bypasses the corruption
gate entirely.  `Alpha` exists and fails the structural check (no `About`
folder), no corruption decision is supplied, yet `update_mod` invoked with
`existing_folder_name = Some("Alpha")` succeeds instead of returning the
`CORRUPTED_MOD_CONFLICT` error — refuting the claim for "every install whose
resolved destination folder already exists and fails the minimal structural
check". -/
theorem claim_C4_counterexample :
    is_mod_corrupted demo_corrupt_dir ['A', 'l', 'p', 'h', 'a'] = true ∧
    (update_mod demo_corrupt_dir demo_install_env none ['1', '2', '3']
        (some ['A', 'l', 'p', 'h', 'a']) none false false none).1 =
      .ok ['A', 'l', 'p', 'h', 'a'] := by
  exact ⟨rfl, rfl⟩

/-- C4 (amended): the corruption gate governs title-derived destinations.
When no caller-supplied folder name is given, no existing folder carries the
item id, and the sanitized title names an existing directory failing the
structural check, then: with no decision supplied, `update_mod` returns the
distinguishable `CORRUPTED_MOD_CONFLICT` error naming the colliding folder
and the item id, without performing any installation step (empty event
trace); force-overwrite proceeds under the same folder name; force-rename
derives a different name through the underscore loop (stated here for a
rename whose loop exited on a non-colliding name, so `folder_name` and
`proposed_path` agree and the re-check on the stale `proposed_path` is
vacuous; the safety-fallback exit leaves the two out of sync and can rename
past `base_modid`).  A caller-supplied name or a reused id-matching folder
bypasses the gate (see the counterexample). -/
theorem claim_C4_corruption_gate (menv : ModsDir) (ienv : InstallEnv)
    (src_pkg : Option FolderName) (mod_id title base : FolderName)
    (cb hbd : Bool)
    (hsan : sanitize_folder_name title = some base)
    (hrd : menv.readDirFails = false)
    (hfind : find_existing_mod_folder menv mod_id = none)
    (hex : menv.pathExists base = true) (hdir : menv.isDir base = true)
    (hcor : is_mod_corrupted menv base = true) :
    (update_mod menv ienv src_pkg mod_id none (some title) cb hbd none =
      (.error (.corrupted_conflict base mod_id), [])) ∧
    resolve_folder_name menv src_pkg mod_id none (some title) (some true) =
      .ok base ∧
    (∀ rn, rename_loop menv base mod_id none = some rn →
      rename_loop_proposed menv base mod_id none = some rn →
      menv.pathExists rn = false →
      resolve_folder_name menv src_pkg mod_id none (some title) (some false) =
        .ok rn ∧ rn ≠ base) := by
  have hresolve : ∀ force : Option Bool,
      resolve_folder_name menv src_pkg mod_id none (some title) force =
        resolve_derived menv src_pkg mod_id base force := by
    intro force
    simp only [resolve_folder_name, hrd, Bool.false_eq_true, if_false, hfind,
      Option.getD_some, hsan]
  refine ⟨?_, ?_, ?_⟩
  · have h1 : resolve_folder_name menv src_pkg mod_id none (some title) none =
        .error (.corrupted_conflict base mod_id) := by
      rw [hresolve none]
      simp only [resolve_derived, hex, hdir, Bool.and_self, if_true,
        corruption_step, hcor]
    simp only [update_mod, h1]
  · rw [hresolve (some true)]
    simp only [resolve_derived, hex, hdir, Bool.and_self, if_true,
      corruption_step, hcor, if_pos rfl]
    simp only [hcor, Bool.not_true, Bool.and_false, Bool.false_eq_true,
      if_false]
  · intro rn hrn hpp hrnex
    refine ⟨?_, rename_loop_ne_base menv base mod_id none rn hrn⟩
    simp only [rename_loop] at hrn
    simp only [rename_loop_proposed] at hpp
    obtain ⟨⟨a, b⟩, hgo, hfst⟩ := Option.map_eq_some'.mp hrn
    obtain ⟨⟨a', b'⟩, hgo', hsnd⟩ := Option.map_eq_some'.mp hpp
    simp only at hfst hsnd
    rw [hgo] at hgo'
    injection hgo' with hval
    injection hval with ha hb
    have hgo2 : rename_loop_go menv base mod_id none 51 base =
        some (rn, rn) := by
      rw [hgo, hfst, hb, hsnd]
    rw [hresolve (some false)]
    simp only [resolve_derived, hex, hdir, Bool.and_self, if_true,
      corruption_step, hcor, if_pos rfl, hgo2]
    simp only [hrnex, Bool.false_and, Bool.false_eq_true, if_false]

/-- C4 witness: the amended claim applies at the concrete corrupted `Alpha`
directory. -/
theorem claim_C4_corruption_gate_witness :
    sanitize_folder_name ['A', 'l', 'p', 'h', 'a'] =
        some ['A', 'l', 'p', 'h', 'a'] ∧
    demo_corrupt_dir.readDirFails = false ∧
    find_existing_mod_folder demo_corrupt_dir ['1', '2', '3'] = none ∧
    demo_corrupt_dir.pathExists ['A', 'l', 'p', 'h', 'a'] = true ∧
    demo_corrupt_dir.isDir ['A', 'l', 'p', 'h', 'a'] = true ∧
    is_mod_corrupted demo_corrupt_dir ['A', 'l', 'p', 'h', 'a'] = true ∧
    (update_mod demo_corrupt_dir demo_install_env none ['1', '2', '3'] none
        (some ['A', 'l', 'p', 'h', 'a']) false false none =
      (.error (.corrupted_conflict ['A', 'l', 'p', 'h', 'a'] ['1', '2', '3']),
        [])) :=
  ⟨by decide, rfl, by decide, by decide, by decide, by decide,
    (claim_C4_corruption_gate demo_corrupt_dir demo_install_env none
      ['1', '2', '3'] ['A', 'l', 'p', 'h', 'a'] ['A', 'l', 'p', 'h', 'a']
      false false (by decide) rfl (by decide) (by decide) (by decide)
      (by decide)).1⟩

/-! ### The watcher ignore discipline (claim C6) -/

/-- Every exit of the effectful phase leaves the destination unregistered, a
registration is always matched by a release, and no destination removal
happens before the registration. -/
theorem install_phase_guard_discipline (env : InstallEnv) (cb hbd : Bool) :
    dest_ignored_after false (install_phase env cb hbd).2 = false ∧
    (InstallEvent.ignore_dest ∈ (install_phase env cb hbd).2 →
      dest_ignored_after true (install_phase env cb hbd).2 = false) ∧
    remove_preceded_by_ignore (install_phase env cb hbd).2 = true := by
  simp only [install_phase]
  by_cases h1 : env.createDirFails = true
  · rw [if_pos h1]
    decide
  rw [if_neg h1]
  by_cases h2 : (cb && env.cancelledBeforeBackup) = true
  · rw [if_pos h2]
    decide
  rw [if_neg h2]
  by_cases h3 : (cb && hbd && env.backupDirCreateFails) = true
  · rw [if_pos h3]
    decide
  rw [if_neg h3]
  by_cases h4 : (cb && hbd && env.backupExists && env.backupRemoveFails) = true
  · rw [if_pos h4]
    decide
  rw [if_neg h4]
  by_cases h5 : (cb && hbd && env.destExistsForBackup && env.backupCopyFails) = true
  · rw [if_pos h5]
    decide
  rw [if_neg h5]
  by_cases h6 : (env.destExistsForRemove && env.cancelledBeforeRemove) = true
  · rw [if_pos h6]
    decide
  rw [if_neg h6]
  by_cases h7 : (env.destExistsForRemove && env.removeFails) = true
  · rw [if_pos h7]
    decide
  rw [if_neg h7]
  by_cases hdr : env.destExistsForRemove = true
  · rw [if_pos hdr]
    by_cases h8 : (!env.srcExists) = true
    · rw [if_pos h8]
      decide
    rw [if_neg h8]
    by_cases h9 : (!env.srcComplete) = true
    · rw [if_pos h9]
      decide
    rw [if_neg h9]
    by_cases h10 : env.cancelledBeforeCopy = true
    · rw [if_pos h10]
      decide
    rw [if_neg h10]
    by_cases h11 : env.copyFails = true
    · rw [if_pos h11]
      decide
    rw [if_neg h11]
    by_cases h12 : (!env.destComplete) = true
    · rw [if_pos h12]
      decide
    rw [if_neg h12]
    by_cases h13 : env.ensureIdFails = true
    · rw [if_pos h13]
      decide
    rw [if_neg h13]
    decide
  · rw [if_neg hdr]
    by_cases h8 : (!env.srcExists) = true
    · rw [if_pos h8]
      decide
    rw [if_neg h8]
    by_cases h9 : (!env.srcComplete) = true
    · rw [if_pos h9]
      decide
    rw [if_neg h9]
    by_cases h10 : env.cancelledBeforeCopy = true
    · rw [if_pos h10]
      decide
    rw [if_neg h10]
    by_cases h11 : env.copyFails = true
    · rw [if_pos h11]
      decide
    rw [if_neg h11]
    by_cases h12 : (!env.destComplete) = true
    · rw [if_pos h12]
      decide
    rw [if_neg h12]
    by_cases h13 : env.ensureIdFails = true
    · rw [if_pos h13]
      decide
    rw [if_neg h13]
    decide

/-- C6: for every invocation of `update_mod`, the destination path is
registered in the watcher ignore set before the destructive removal of the
existing destination folder (no `removed_dest` event precedes the
`ignore_dest` event), and the registration is released on every exit path —
so an invocation starting with the path unregistered never leaves it
registered, and any invocation that did register it ends with it released. -/
theorem claim_C6_watcher_ignore_discipline (menv : ModsDir)
    (ienv : InstallEnv) (src_pkg : Option FolderName) (mod_id : FolderName)
    (efn mod_title : Option FolderName) (cb hbd : Bool)
    (force : Option Bool) :
    dest_ignored_after false
        (update_mod menv ienv src_pkg mod_id efn mod_title cb hbd force).2 =
      false ∧
    (InstallEvent.ignore_dest ∈
        (update_mod menv ienv src_pkg mod_id efn mod_title cb hbd force).2 →
      dest_ignored_after true
          (update_mod menv ienv src_pkg mod_id efn mod_title cb hbd force).2 =
        false) ∧
    remove_preceded_by_ignore
        (update_mod menv ienv src_pkg mod_id efn mod_title cb hbd force).2 =
      true := by
  unfold update_mod
  cases hres : resolve_folder_name menv src_pkg mod_id efn mod_title force with
  | error e => exact ⟨rfl, by simp, rfl⟩
  | ok fn =>
    obtain ⟨h1, h2, h3⟩ := install_phase_guard_discipline ienv cb hbd
    cases hip : install_phase ienv cb hbd with
    | mk r tr =>
      rw [hip] at h1 h2 h3
      cases r with
      | ok u => exact ⟨h1, h2, h3⟩
      | error e => exact ⟨h1, h2, h3⟩

/-! ### The completion detector (claim C5) -/

/-- C5: evaluation of the detector at the failing scenario.  The claim states
that on every success path — the fast path, the notification path, the poll
fallback, and the final existence check after the absolute timeout — the
shared failure set is consulted before the success signal.  The first
conjunct shows the code slip: at the outer-timeout final check
(`steamcmd_client.rs`, lines 987-1004) the folder is present, the item is in
the failure set, and the detector nevertheless sends the success and returns
the mod — the failure set is not read on that path.  The remaining conjuncts
show the fast path and the poll fallback do consult the set and suppress the
success in the same situation, as the claim (and the source comments on those
paths) require. -/
theorem claim_C5_timeout_final_check_skips_failure_set :
    wait_for_mod_download_static timeout_bug_env = (true, true) ∧
    wait_for_mod_download_static flagged_poll_env = (false, false) ∧
    wait_for_mod_download_static flagged_fast_env = (false, false) :=
  ⟨rfl, rfl, rfl⟩

/-! ### Orchestrator stream lemmas (claims C1, C2) -/

/-- Messages emitted for one item carry that item's id and the attempt tag. -/
theorem outcome_msgs_spec (id : String) (n : Nat) (o : AttemptOutcome) :
    ∀ m ∈ outcome_msgs id n o, msg_id m = id ∧ msg_tag m = n := by
  intro m hm
  cases o <;> simp only [outcome_msgs, List.mem_cons, List.mem_singleton,
    List.not_mem_nil, or_false] at hm <;>
    rcases hm with rfl | rfl <;> simp [msg_id, msg_tag]

/-- Attempt messages concern remaining items and carry the attempt tag. -/
theorem attempt_msgs_spec (oracle : Nat → String → AttemptOutcome) (n : Nat)
    (remaining : List String) :
    ∀ m ∈ attempt_msgs oracle n remaining,
      msg_id m ∈ remaining ∧ msg_tag m = n := by
  intro m hm
  simp only [attempt_msgs, List.mem_flatten] at hm
  obtain ⟨l, hl, hml⟩ := hm
  obtain ⟨id, hid, rfl⟩ := List.mem_map.mp hl
  obtain ⟨h1, h2⟩ := outcome_msgs_spec id n (oracle n id) m hml
  exact ⟨h1 ▸ hid, h2⟩

/-- An item in the attempt receives at least one message. -/
theorem attempt_msgs_count_pos (oracle : Nat → String → AttemptOutcome)
    (n : Nat) (remaining : List String) (id : String) (h : id ∈ remaining) :
    1 ≤ msgs_for id (attempt_msgs oracle n remaining) := by
  induction remaining with
  | nil => simp at h
  | cons r rest ih =>
    have hsplit : attempt_msgs oracle n (r :: rest) =
        outcome_msgs r n (oracle n r) ++ attempt_msgs oracle n rest := by
      simp [attempt_msgs]
    rw [hsplit]
    rw [msgs_for, List.countP_append]
    rcases List.mem_cons.mp h with rfl | h
    · have h1 : 1 ≤ List.countP (fun m => msg_id m == id)
          (outcome_msgs id n (oracle n id)) := by
        cases horc : oracle n id <;> simp [outcome_msgs, List.countP_cons,
          msg_id]
      omega
    · have h2 := ih h
      rw [msgs_for] at h2
      omega

/-- No attempt message is a terminal failure. -/
theorem attempt_msgs_no_final (oracle : Nat → String → AttemptOutcome)
    (n : Nat) (remaining : List String) (id : String) (k : Nat) :
    ChanMsg.err_final id k ∉ attempt_msgs oracle n remaining := by
  intro hm
  simp only [attempt_msgs, List.mem_flatten] at hm
  obtain ⟨l, hl, hml⟩ := hm
  obtain ⟨i, _, rfl⟩ := List.mem_map.mp hl
  cases horc : oracle n i <;> rw [horc] at hml <;> simp [outcome_msgs] at hml

/-- Support of a run: every message concerns an item of the remaining set and
is tagged at least `rc`; every attempt is indexed at least `rc` and includes
only remaining items. -/
theorem run_from_support (oracle : Nat → String → AttemptOutcome) :
    ∀ (fuel : Nat) (remaining : List String) (rc : Nat),
      (∀ m ∈ (run_from oracle fuel remaining rc).1,
        msg_id m ∈ remaining ∧ rc ≤ msg_tag m) ∧
      (∀ p ∈ (run_from oracle fuel remaining rc).2,
        rc ≤ p.1 ∧ ∀ id ∈ p.2, id ∈ remaining) := by
  intro fuel
  induction fuel with
  | zero =>
    intro remaining rc
    cases remaining <;> simp [run_from]
  | succ fuel ih =>
    intro remaining rc
    cases remaining with
    | nil => simp [run_from]
    | cons r0 rs =>
      simp only [run_from]
      by_cases hrc : rc > MAX_RETRIES
      · rw [if_pos hrc]
        simp
      rw [if_neg hrc]
      have hmsgs := attempt_msgs_spec oracle rc (r0 :: rs)
      by_cases hdl : ((r0 :: rs).filter
          (fun id => oracle rc id == .verified)).isEmpty = true
      · rw [if_pos hdl]
        by_cases hlast : rc + 1 > MAX_RETRIES
        · rw [if_pos hlast]
          constructor
          · intro m hm
            rcases List.mem_append.mp hm with hm | hm
            · obtain ⟨h1, h2⟩ := hmsgs m hm
              exact ⟨h1, by omega⟩
            · obtain ⟨i, hi, rfl⟩ := List.mem_map.mp hm
              exact ⟨hi, by simp [msg_tag]⟩
          · intro p hp
            rw [List.mem_singleton] at hp
            subst hp
            exact ⟨le_refl _, fun id hid => hid⟩
        · rw [if_neg hlast]
          obtain ⟨ih1, ih2⟩ := ih (r0 :: rs) (rc + 1)
          constructor
          · intro m hm
            rcases List.mem_append.mp hm with hm | hm
            · obtain ⟨h1, h2⟩ := hmsgs m hm
              exact ⟨h1, by omega⟩
            · obtain ⟨h1, h2⟩ := ih1 m hm
              exact ⟨h1, by omega⟩
          · intro p hp
            rcases List.mem_cons.mp hp with rfl | hp
            · exact ⟨le_refl _, fun id hid => hid⟩
            · obtain ⟨h1, h2⟩ := ih2 p hp
              exact ⟨by omega, h2⟩
      · rw [if_neg hdl]
        by_cases hre : ((r0 :: rs).filter
            (fun id => !(oracle rc id == .verified))).isEmpty = true
        · rw [if_pos hre]
          constructor
          · intro m hm
            obtain ⟨h1, h2⟩ := hmsgs m hm
            exact ⟨h1, by omega⟩
          · intro p hp
            rw [List.mem_singleton] at hp
            subst hp
            exact ⟨le_refl _, fun id hid => hid⟩
        · rw [if_neg hre]
          by_cases hlt : rc < MAX_RETRIES
          · rw [if_pos hlt]
            obtain ⟨ih1, ih2⟩ := ih ((r0 :: rs).filter
              (fun id => !(oracle rc id == .verified))) (rc + 1)
            constructor
            · intro m hm
              rcases List.mem_append.mp hm with hm | hm
              · obtain ⟨h1, h2⟩ := hmsgs m hm
                exact ⟨h1, by omega⟩
              · obtain ⟨h1, h2⟩ := ih1 m hm
                exact ⟨List.mem_of_mem_filter h1, by omega⟩
            · intro p hp
              rcases List.mem_cons.mp hp with rfl | hp
              · exact ⟨le_refl _, fun id hid => hid⟩
              · obtain ⟨h1, h2⟩ := ih2 p hp
                exact ⟨by omega, fun id hid =>
                  List.mem_of_mem_filter (h2 id hid)⟩
          · rw [if_neg hlt]
            constructor
            · intro m hm
              rcases List.mem_append.mp hm with hm | hm
              · obtain ⟨h1, h2⟩ := hmsgs m hm
                exact ⟨h1, by omega⟩
              · obtain ⟨i, hi, rfl⟩ := List.mem_map.mp hm
                exact ⟨List.mem_of_mem_filter hi, by simp [msg_tag]⟩
            · intro p hp
              rw [List.mem_singleton] at hp
              subst hp
              exact ⟨le_refl _, fun id hid => hid⟩

/-- Exclusion: an item verified in an attempt is not included in any later
attempt and receives no message tagged after that attempt. -/
theorem run_from_exclusion (oracle : Nat → String → AttemptOutcome)
    (id : String) :
    ∀ (fuel : Nat) (remaining : List String) (rc : Nat) (rc1 : Nat)
      (att : List String),
      (rc1, att) ∈ (run_from oracle fuel remaining rc).2 →
      id ∈ att → oracle rc1 id = .verified →
      (∀ rc2 att2, (rc2, att2) ∈ (run_from oracle fuel remaining rc).2 →
        rc1 < rc2 → id ∉ att2) ∧
      (∀ m ∈ (run_from oracle fuel remaining rc).1,
        msg_id m = id → msg_tag m ≤ rc1) := by
  intro fuel
  induction fuel with
  | zero =>
    intro remaining rc rc1 att hmem
    cases remaining <;> simp [run_from] at hmem
  | succ fuel ih =>
    intro remaining rc rc1 att hmem hid hver
    cases remaining with
    | nil => simp [run_from] at hmem
    | cons r0 rs =>
      simp only [run_from] at hmem ⊢
      by_cases hrc : rc > MAX_RETRIES
      · rw [if_pos hrc] at hmem
        simp at hmem
      rw [if_neg hrc] at hmem ⊢
      have hmsgs := attempt_msgs_spec oracle rc (r0 :: rs)
      by_cases hdl : ((r0 :: rs).filter
          (fun id => oracle rc id == .verified)).isEmpty = true
      · -- the attempt verified nothing, so the head attempt cannot be the
        -- verified one
        rw [if_pos hdl] at hmem ⊢
        have hhead : ¬((rc1 = rc ∧ att = r0 :: rs)) := by
          rintro ⟨rfl, rfl⟩
          have : id ∈ (r0 :: rs).filter
              (fun id => oracle rc1 id == .verified) :=
            List.mem_filter.mpr ⟨hid, by simp [hver]⟩
          rw [List.isEmpty_iff] at hdl
          rw [hdl] at this
          simp at this
        by_cases hlast : rc + 1 > MAX_RETRIES
        · rw [if_pos hlast] at hmem ⊢
          rw [List.mem_singleton] at hmem
          exact absurd ⟨congrArg Prod.fst hmem, congrArg Prod.snd hmem⟩ hhead
        · rw [if_neg hlast] at hmem ⊢
          rcases List.mem_cons.mp hmem with heq | hmem2
          · exact absurd ⟨congrArg Prod.fst heq, congrArg Prod.snd heq⟩ hhead
          · obtain ⟨hex1, hex2⟩ := ih (r0 :: rs) (rc + 1) rc1 att hmem2 hid hver
            have hrc1 : rc + 1 ≤ rc1 :=
              ((run_from_support oracle fuel (r0 :: rs) (rc + 1)).2 _ hmem2).1
            constructor
            · intro rc2 att2 hmem3 hlt
              rcases List.mem_cons.mp hmem3 with heq | hmem4
              · have : rc2 = rc := congrArg Prod.fst heq
                omega
              · exact hex1 rc2 att2 hmem4 hlt
            · intro m hm hmid
              rcases List.mem_append.mp hm with hm | hm
              · have := (hmsgs m hm).2
                omega
              · exact hex2 m hm hmid
      · rw [if_neg hdl] at hmem ⊢
        by_cases hre : ((r0 :: rs).filter
            (fun id => !(oracle rc id == .verified))).isEmpty = true
        · rw [if_pos hre] at hmem ⊢
          rw [List.mem_singleton] at hmem
          have hrc1 : rc1 = rc := congrArg Prod.fst hmem
          constructor
          · intro rc2 att2 hmem3 hlt
            rw [List.mem_singleton] at hmem3
            have : rc2 = rc := congrArg Prod.fst hmem3
            omega
          · intro m hm _
            have := (hmsgs m hm).2
            omega
        · rw [if_neg hre] at hmem ⊢
          by_cases hlt : rc < MAX_RETRIES
          · rw [if_pos hlt] at hmem ⊢
            rcases List.mem_cons.mp hmem with heq | hmem2
            · -- the verified attempt is the head: the item is filtered out of
              -- the next remaining set, and the support lemma excludes it
              -- from everything the recursion produces
              have hrc1 : rc1 = rc := congrArg Prod.fst heq
              subst hrc1
              have hidout : id ∉ (r0 :: rs).filter
                  (fun id => !(oracle rc1 id == .verified)) := by
                intro hcon
                have := (List.mem_filter.mp hcon).2
                rw [hver] at this
                simp at this
              have hsup := run_from_support oracle fuel
                ((r0 :: rs).filter (fun id => !(oracle rc1 id == .verified)))
                (rc1 + 1)
              constructor
              · intro rc2 att2 hmem3 hlt2
                rcases List.mem_cons.mp hmem3 with heq2 | hmem4
                · have : rc2 = rc1 := congrArg Prod.fst heq2
                  omega
                · intro hcon
                  exact hidout ((hsup.2 _ hmem4).2 id hcon)
              · intro m hm hmid
                rcases List.mem_append.mp hm with hm | hm
                · have := (hmsgs m hm).2
                  omega
                · have := (hsup.1 m hm).1
                  rw [hmid] at this
                  exact absurd this hidout
            · obtain ⟨hex1, hex2⟩ := ih ((r0 :: rs).filter
                (fun id => !(oracle rc id == .verified))) (rc + 1) rc1 att
                hmem2 hid hver
              have hrc1 : rc + 1 ≤ rc1 :=
                ((run_from_support oracle fuel _ (rc + 1)).2 _ hmem2).1
              constructor
              · intro rc2 att2 hmem3 hlt2
                rcases List.mem_cons.mp hmem3 with heq | hmem4
                · have : rc2 = rc := congrArg Prod.fst heq
                  omega
                · exact hex1 rc2 att2 hmem4 hlt2
              · intro m hm hmid
                rcases List.mem_append.mp hm with hm | hm
                · have := (hmsgs m hm).2
                  omega
                · exact hex2 m hm hmid
          · rw [if_neg hlt] at hmem ⊢
            rw [List.mem_singleton] at hmem
            have hrc1 : rc1 = rc := congrArg Prod.fst hmem
            subst hrc1
            have hidout : id ∉ (r0 :: rs).filter
                (fun id => !(oracle rc1 id == .verified)) := by
              intro hcon
              have := (List.mem_filter.mp hcon).2
              rw [hver] at this
              simp at this
            constructor
            · intro rc2 att2 hmem3 hlt2
              rw [List.mem_singleton] at hmem3
              have : rc2 = rc1 := congrArg Prod.fst hmem3
              omega
            · intro m hm hmid
              rcases List.mem_append.mp hm with hm | hm
              · have := (hmsgs m hm).2
                omega
              · obtain ⟨i, hi, rfl⟩ := List.mem_map.mp hm
                simp only [msg_id] at hmid
                subst hmid
                exact absurd hi hidout

/-- At least one message per remaining item in a live run. -/
theorem run_from_at_least_once (oracle : Nat → String → AttemptOutcome)
    (id : String) (fuel : Nat) (remaining : List String) (rc : Nat)
    (hid : id ∈ remaining) (hrc : ¬rc > MAX_RETRIES) (hfuel : 1 ≤ fuel) :
    1 ≤ msgs_for id (run_from oracle fuel remaining rc).1 := by
  cases remaining with
  | nil => simp at hid
  | cons r0 rs =>
    cases fuel with
    | zero => omega
    | succ fuel =>
      simp only [run_from, if_neg hrc]
      have hbase := attempt_msgs_count_pos oracle rc (r0 :: rs) id hid
      by_cases hdl : ((r0 :: rs).filter
          (fun id => oracle rc id == .verified)).isEmpty = true
      · rw [if_pos hdl]
        by_cases hlast : rc + 1 > MAX_RETRIES
        · rw [if_pos hlast]
          rw [msgs_for, List.countP_append]
          rw [msgs_for] at hbase
          omega
        · rw [if_neg hlast]
          rw [msgs_for, List.countP_append]
          rw [msgs_for] at hbase
          omega
      · rw [if_neg hdl]
        by_cases hre : ((r0 :: rs).filter
            (fun id => !(oracle rc id == .verified))).isEmpty = true
        · rw [if_pos hre]
          exact hbase
        · rw [if_neg hre]
          by_cases hlt : rc < MAX_RETRIES
          · rw [if_pos hlt]
            rw [msgs_for, List.countP_append]
            rw [msgs_for] at hbase
            omega
          · rw [if_neg hlt]
            rw [msgs_for, List.countP_append]
            rw [msgs_for] at hbase
            omega

/-- A run over an item that no attempt ever verifies performs the attempts
`rc, rc+1, ..., MAX_RETRIES` (all including the item) and emits exactly one
terminal failure for it. -/
theorem run_from_never_verified (oracle : Nat → String → AttemptOutcome)
    (id : String) (hfail : ∀ n, oracle n id ≠ .verified) :
    ∀ (fuel : Nat) (remaining : List String) (rc : Nat),
      id ∈ remaining → remaining.Nodup → fuel + rc = MAX_RETRIES + 1 →
      1 ≤ fuel →
      (run_from oracle fuel remaining rc).2.map Prod.fst =
        List.range' rc fuel ∧
      (∀ p ∈ (run_from oracle fuel remaining rc).2, id ∈ p.2) ∧
      List.count (ChanMsg.err_final id MAX_RETRIES)
        (run_from oracle fuel remaining rc).1 = 1 := by
  intro fuel
  induction fuel with
  | zero =>
    intro remaining rc _ _ _ hfuel
    omega
  | succ fuel ih =>
    intro remaining rc hid hnd hsum _hfuel
    cases remaining with
    | nil => simp at hid
    | cons r0 rs =>
      have hrc : ¬rc > MAX_RETRIES := by omega
      simp only [run_from, if_neg hrc]
      have hnof : List.count (ChanMsg.err_final id MAX_RETRIES)
          (attempt_msgs oracle rc (r0 :: rs)) = 0 :=
        List.count_eq_zero.mpr (attempt_msgs_no_final oracle rc (r0 :: rs) id
          MAX_RETRIES)
      have hfinals : ∀ (l : List String), id ∈ l → l.Nodup →
          List.count (ChanMsg.err_final id MAX_RETRIES)
            (l.map (fun i => ChanMsg.err_final i MAX_RETRIES)) = 1 := by
        intro l hl hlnd
        have hinj : Function.Injective
            (fun i => ChanMsg.err_final i MAX_RETRIES) := by
          intro a b hab
          simpa using hab
        rw [List.count_map_of_injective l _ hinj id]
        exact List.count_eq_one_of_mem hlnd hl
      by_cases hdl : ((r0 :: rs).filter
          (fun id => oracle rc id == .verified)).isEmpty = true
      · rw [if_pos hdl]
        by_cases hlast : rc + 1 > MAX_RETRIES
        · rw [if_pos hlast]
          have hrceq : rc = MAX_RETRIES := by omega
          have hfuel0 : fuel = 0 := by omega
          subst hrceq
          subst hfuel0
          refine ⟨by simp [List.range'], ?_, ?_⟩
          · intro p hp
            rw [List.mem_singleton] at hp
            subst hp
            exact hid
          · rw [List.count_append, hnof, hfinals (r0 :: rs) hid hnd]
        · rw [if_neg hlast]
          have hfuel1 : 1 ≤ fuel := by omega
          obtain ⟨ih1, ih2, ih3⟩ := ih (r0 :: rs) (rc + 1) hid hnd (by omega)
            hfuel1
          refine ⟨?_, ?_, ?_⟩
          · simp only [List.map_cons, ih1]
            rw [List.range'_succ]
          · intro p hp
            rcases List.mem_cons.mp hp with rfl | hp
            · exact hid
            · exact ih2 p hp
          · rw [List.count_append, hnof, ih3]
      · rw [if_neg hdl]
        have hidrem : id ∈ (r0 :: rs).filter
            (fun id => !(oracle rc id == .verified)) := by
          refine List.mem_filter.mpr ⟨hid, ?_⟩
          have := hfail rc
          simp only [Bool.not_eq_eq_eq_not, Bool.not_true, beq_eq_false_iff_ne]
          exact this
        have hre : ¬((r0 :: rs).filter
            (fun id => !(oracle rc id == .verified))).isEmpty = true := by
          intro hcon
          rw [List.isEmpty_iff] at hcon
          rw [hcon] at hidrem
          simp at hidrem
        rw [if_neg hre]
        by_cases hlt : rc < MAX_RETRIES
        · rw [if_pos hlt]
          have hfuel1 : 1 ≤ fuel := by omega
          obtain ⟨ih1, ih2, ih3⟩ := ih ((r0 :: rs).filter
            (fun id => !(oracle rc id == .verified))) (rc + 1) hidrem
            (hnd.filter _) (by omega) hfuel1
          refine ⟨?_, ?_, ?_⟩
          · simp only [List.map_cons, ih1]
            rw [List.range'_succ]
          · intro p hp
            rcases List.mem_cons.mp hp with rfl | hp
            · exact hid
            · exact ih2 p hp
          · rw [List.count_append, hnof, ih3]
        · rw [if_neg hlt]
          have hrceq : rc = MAX_RETRIES := by omega
          have hfuel0 : fuel = 0 := by omega
          subst hrceq
          subst hfuel0
          refine ⟨by simp [List.range'], ?_, ?_⟩
          · intro p hp
            rw [List.mem_singleton] at hp
            subst hp
            exact hid
          · rw [List.count_append, hnof,
              hfinals _ hidrem (hnd.filter _)]

/-! ### Claim theorems: the orchestrator stream (C1, C2) -/

/-- C1 counterexample: two concrete runs refute "each item ID appears in the
stream exactly once ... no duplicate reports" and "once emitted as a channel
success it is never reported again".  A single item failing every attempt
(SteamCMD reports the failure each time) receives one per-attempt `Err` from
each of the 7 attempts plus the terminal `Err` — 8 messages.  And an item
whose first attempt leaves a non-empty but incomplete folder gets `Ok` (the
detector sends before verification), then `Err` (verification fails at the
join), and then another `Ok` from the successful retry — a success is
followed by further reports. -/
theorem claim_C1_counterexample :
    msgs_for "111" (download_mods_with_sizes always_fails_oracle ["111"]).1 =
        8 ∧
    (download_mods_with_sizes flaky_oracle ["111"]).1 =
      [.ok "111" 0, .err "111" 0, .ok "111" 1] := by
  exact ⟨by decide, by decide⟩

/-- C1 (amended): in a completed, uncancelled run, every requested item ID
appears at least once in the output stream, and an item verified as
downloaded in an attempt is excluded from all later attempts and receives no
message tagged after that attempt.  Exactly-once does not hold: each failed
attempt emits its own per-attempt `Err` for the item, a detector success that
fails verification emits both an `Ok` and an `Err`, and such an item is
retried and can emit a second `Ok` (see the counterexample). -/
theorem claim_C1_stream_properties (oracle : Nat → String → AttemptOutcome)
    (mod_ids : List String) (id : String) (hid : id ∈ mod_ids) :
    1 ≤ msgs_for id (download_mods_with_sizes oracle mod_ids).1 ∧
    (∀ rc1 att, (rc1, att) ∈ (download_mods_with_sizes oracle mod_ids).2 →
      id ∈ att → oracle rc1 id = .verified →
      (∀ rc2 att2, (rc2, att2) ∈ (download_mods_with_sizes oracle mod_ids).2 →
        rc1 < rc2 → id ∉ att2) ∧
      (∀ m ∈ (download_mods_with_sizes oracle mod_ids).1,
        msg_id m = id → msg_tag m ≤ rc1)) := by
  constructor
  · exact run_from_at_least_once oracle id (MAX_RETRIES + 1) mod_ids 0 hid
      (by simp [MAX_RETRIES]) (by omega)
  · intro rc1 att hmem hidatt hver
    exact run_from_exclusion oracle id (MAX_RETRIES + 1) mod_ids 0 rc1 att
      hmem hidatt hver

/-- C1 witness: the amended claim applies at a concrete run. -/
theorem claim_C1_stream_properties_witness :
    ("a" ∈ ["a", "b"]) ∧
    (1 ≤ msgs_for "a" (download_mods_with_sizes always_ok_oracle ["a", "b"]).1 ∧
    (∀ rc1 att,
      (rc1, att) ∈ (download_mods_with_sizes always_ok_oracle ["a", "b"]).2 →
      "a" ∈ att → always_ok_oracle rc1 "a" = .verified →
      (∀ rc2 att2,
        (rc2, att2) ∈ (download_mods_with_sizes always_ok_oracle ["a", "b"]).2 →
        rc1 < rc2 → "a" ∉ att2) ∧
      (∀ m ∈ (download_mods_with_sizes always_ok_oracle ["a", "b"]).1,
        msg_id m = "a" → msg_tag m ≤ rc1))) :=
  ⟨by decide,
    claim_C1_stream_properties always_ok_oracle ["a", "b"] "a" (by decide)⟩

/-- C2 counterexample: with `MAX_RETRIES = 6`, an item that fails every
attempt is included in 7 fetch-tool attempts (the initial attempt plus 6
retries), not 6 — refuting "exactly maxAttempts (configured maximum, e.g. 6)
fetch-tool attempts". -/
theorem claim_C2_counterexample :
    MAX_RETRIES = 6 ∧
    (download_mods_with_sizes always_fails_oracle ["111"]).2.length = 7 ∧
    (∀ p ∈ (download_mods_with_sizes always_fails_oracle ["111"]).2,
      "111" ∈ p.2) := by
  refine ⟨rfl, by decide, by decide⟩

/-- C2 (amended): for every item ID that fails on every fetch attempt (with
distinct requested ids), the orchestrator performs exactly
`MAX_RETRIES + 1 = 7` fetch-tool attempts — indexed `0..6`, each including
that ID — and then reports it as a terminal failure on the channel exactly
once; the attempt list ends there, so no further fetch-tool invocation
includes the ID after the terminal failure. -/
theorem claim_C2_retry_bound (oracle : Nat → String → AttemptOutcome)
    (mod_ids : List String) (id : String) (hid : id ∈ mod_ids)
    (hnd : mod_ids.Nodup) (hfail : ∀ n, oracle n id ≠ .verified) :
    (download_mods_with_sizes oracle mod_ids).2.map Prod.fst =
      List.range' 0 (MAX_RETRIES + 1) ∧
    (∀ p ∈ (download_mods_with_sizes oracle mod_ids).2, id ∈ p.2) ∧
    List.count (ChanMsg.err_final id MAX_RETRIES)
      (download_mods_with_sizes oracle mod_ids).1 = 1 :=
  run_from_never_verified oracle id hfail (MAX_RETRIES + 1) mod_ids 0 hid hnd
    rfl (by omega)

/-- C2 witness: the amended claim applies at a concrete run. -/
theorem claim_C2_retry_bound_witness :
    ("111" ∈ ["111"]) ∧ (["111"] : List String).Nodup ∧
    (∀ n, always_fails_oracle n "111" ≠ .verified) ∧
    ((download_mods_with_sizes always_fails_oracle ["111"]).2.map Prod.fst =
      List.range' 0 (MAX_RETRIES + 1) ∧
    (∀ p ∈ (download_mods_with_sizes always_fails_oracle ["111"]).2,
      "111" ∈ p.2) ∧
    List.count (ChanMsg.err_final "111" MAX_RETRIES)
      (download_mods_with_sizes always_fails_oracle ["111"]).1 = 1) :=
  ⟨by decide, by decide, fun _ h => AttemptOutcome.noConfusion h,
    claim_C2_retry_bound always_fails_oracle ["111"] "111" (by decide)
      (by decide) (fun _ h => AttemptOutcome.noConfusion h)⟩

end Workshop
